import Mathlib

/-!
Verification of the statistics-aggregation and directory-tree engine of
`code_analysis.py`.

The Python program is shallowly embedded here:

* strings are modelled as `List Char` (`chars` converts a literal);
* Python `dict`s (all of which are used insertion-ordered) are modelled as
  association lists, with `updAssoc` reproducing the get-or-insert-default
  update of a `defaultdict` (an update in place keeps the key's position, a
  new key is appended at the end, exactly as CPython dicts behave);
* the `git blame --line-porcelain` parser `get_git_blame_info` is modelled on
  the list of text lines (the program splits the raw output on newlines);
* a file whose blame data could not be retrieved is represented by an empty
  authorship record, which is what the Python function returns in that case;
* the float comparison `lines / total_lines > 0.01` of the renderer is
  modelled over `ℚ`, and the `ZeroDivisionError` raised by that expression
  when `total_lines == 0` is modelled by `Except.error ()`.
-/

def chars (s : String) : List Char := s.data

/-! ### Association lists (insertion-ordered dictionaries) -/

/-- `m[k] = f(m.get(k, d))` on an insertion-ordered dictionary: the first
entry with key `k` is updated in place, a missing key is appended at the end
with value `f d` (this is the get-or-insert-default behaviour of the
`defaultdict`s in the source). -/
def updAssoc {κ β : Type} [DecidableEq κ] (m : List (κ × β)) (k : κ) (f : β → β) (d : β) : List (κ × β) :=
  match m with
  | [] => [(k, f d)]
  | (k', v) :: rest => if k' = k then (k', f v) :: rest else (k', v) :: updAssoc rest k f d

/-- Dictionary lookup (first matching key). -/
def getA {κ β : Type} [DecidableEq κ] (m : List (κ × β)) (k : κ) : Option β :=
  match m with
  | [] => none
  | (k', v) :: rest => if k' = k then some v else getA rest k

/-! ### Paths and extensions -/

/-- Split a character list at every occurrence of `sep` (like
`str.split(sep)`: `n` separators yield `n+1` pieces). -/
def splitOnChar (sep : Char) : List Char → List (List Char)
  | [] => [[]]
  | c :: cs =>
      match splitOnChar sep cs with
      | [] => [[c]]
      | seg :: rest => if c = sep then [] :: seg :: rest else (c :: seg) :: rest

/-- `Path(file_path).parts` for the repository-relative POSIX paths produced
by `git ls-files`: split on `/`, dropping empty segments and `.` segments
(which `pathlib` normalises away). -/
def pathParts (p : List Char) : List (List Char) :=
  (splitOnChar '/' p).filter (fun seg => decide (seg ≠ [] ∧ seg ≠ ['.']))

/-- The directory part of a path: all segments except the final (filename)
segment, `parts[:-1]` in the source. -/
def dirOf (p : List Char) : List (List Char) := (pathParts p).dropLast

/-- Index of the last occurrence of `c` (Python `str.rfind`, with `none` for
the `-1` "not found" result). -/
def rlast (c : Char) : List Char → Option Nat
  | [] => none
  | a :: as =>
      match rlast c as with
      | some i => some (i + 1)
      | none => if a = c then some 0 else none

/-- The extension of a path as computed by `os.path.splitext(p)[1]`
(CPython `genericpath._splitext`): the suffix starting at the last `.`,
provided that dot lies after the last `/` and is not part of a leading run
of dots of the basename (so `".py"` and `"a/..py"` have extension `""`). -/
def splitextExt (p : List Char) : List Char :=
  match rlast '.' p, rlast '/' p with
  | some d, some s =>
      if s < d then
        if ((p.drop (s + 1)).take (d - (s + 1))).any (fun c => decide (c ≠ '.')) then p.drop d
        else []
      else []
  | some d, none =>
      if (p.take d).any (fun c => decide (c ≠ '.')) then p.drop d else []
  | none, _ => []

/-- The final path segment (text after the last `/`). -/
def finalSegment (p : List Char) : List Char :=
  match rlast '/' p with
  | some s => p.drop (s + 1)
  | none => p

/-- The extension rule exactly as the claim states it: the substring of the
final path segment from its last `.` (dot included) to the end, and the
empty string when the final segment has no dot. -/
def extOfClaim (p : List Char) : List Char :=
  match rlast '.' (finalSegment p) with
  | some k => (finalSegment p).drop k
  | none => []

/-- The amended extension rule: as `extOfClaim`, except that a dot all of
whose predecessors in the final segment are themselves dots does not start
an extension (the leading-dot rule of `os.path.splitext`). -/
def extOfAmended (p : List Char) : List Char :=
  match rlast '.' (finalSegment p) with
  | some k =>
      if ((finalSegment p).take k).any (fun c => decide (c ≠ '.')) then (finalSegment p).drop k
      else []
  | none => []

/-! ### The authorship parser (`get_git_blame_info`) -/

/-- The literal prefix `"author "` recognised by the parser. -/
def authTagL : List Char := chars ("author ")

def isHexLower (c : Char) : Bool :=
  (decide ('0' ≤ c) && decide (c ≤ '9')) || (decide ('a' ≤ c) && decide (c ≤ 'f'))

/-- `re.match(r"^[0-9a-f]{40}", line)`: the first 40 characters exist and
are lowercase hex digits. -/
def isHex40 (l : List Char) : Bool :=
  decide (40 ≤ l.length) && (l.take 40).all isHexLower

/-- `line.split()[0]`: the first whitespace-separated token. -/
def firstTok (l : List Char) : List Char :=
  (l.dropWhile (fun c => c.isWhitespace)).takeWhile (fun c => decide (¬ c.isWhitespace))

/-- `commit_counts[author] += 1` with the `if author not in` initialisation. -/
def bumpCount (m : List (List Char × Nat)) (a : List Char) : List (List Char × Nat) :=
  updAssoc m a (fun n => n + 1) 0

/-- Parser state: `current_commit` (`None` initially) and `commit_counts`. -/
abbrev BlameSt := Option (List Char) × List (List Char × Nat)

/-- Python truthiness of `current_commit`: non-`None` and non-empty. -/
def truthyS : Option (List Char) → Bool
  | none => false
  | some s => decide (s ≠ [])

/-- One iteration of the parser loop of `get_git_blame_info`: an
`"author "`-prefixed line increments that author's counter when
`current_commit` is truthy and the name is non-empty (`line.replace('author
', '', 1)` under the `startswith` guard is exactly `line.drop 7`), a line
matching `^[0-9a-f]{40}` updates `current_commit` to its first token, and
every other line is ignored. -/
def blameStep (st : BlameSt) (line : List Char) : BlameSt :=
  if authTagL.isPrefixOf line then
    let author := line.drop 7
    if truthyS st.1 && decide (author ≠ []) then (st.1, bumpCount st.2 author) else st
  else if isHex40 line then (some (firstTok line), st.2)
  else st

/-- `get_git_blame_info`, applied to the already-split output lines. -/
def get_git_blame_info (ls : List (List Char)) : List (List Char × Nat) :=
  (ls.foldl blameStep (none, [])).2

/-- `sum(record.values())` — total lines of an authorship record. -/
def fileLines (r : List (List Char × Nat)) : Nat := (r.map (fun e => e.2)).sum

/-- The number of content lines of a porcelain text: in
`--line-porcelain` output each content line (and nothing else) starts with a
tab. -/
def contentCount (ls : List (List Char)) : Nat :=
  ls.countP (fun l => decide (l.head? = some '\t'))

/-! ### The statistics aggregator (main loop, lines 144-157) -/

/-- One tracked file as fed to the aggregation loop: its path and the
authorship record `get_git_blame_info` produced for it (empty when blame
failed). -/
abbrev FileIn := List Char × List (List Char × Nat)

structure ExtStat where
  files : Nat
  lines : Nat
  deriving DecidableEq, Repr

structure Stats where
  total_lines : Nat
  extension_stats : List (List Char × ExtStat)
  author_stats : List (List Char × Nat)
  author_ext_stats : List (List Char × List (List Char × Nat))
  deriving DecidableEq, Repr

/-- The body of the aggregation loop for one file: add the file's lines to
`total_lines`, bump its extension's file and line counters, and fold every
`(author, count)` entry of its record into `author_stats` and
`author_ext_stats` (the two per-entry updates of the Python loop touch
distinct tables, so they are folded separately here). -/
def processFile (s : Stats) (f : FileIn) : Stats :=
  let file_lines := fileLines f.2
  let ext := splitextExt f.1
  ⟨s.total_lines + file_lines,
   updAssoc s.extension_stats ext (fun es => ⟨es.files + 1, es.lines + file_lines⟩) ⟨0, 0⟩,
   f.2.foldl (fun t e => updAssoc t e.1 (fun n => n + e.2) 0) s.author_stats,
   f.2.foldl (fun t e => updAssoc t e.1 (fun inner => updAssoc inner ext (fun n => n + e.2) 0) []) s.author_ext_stats⟩

/-- The whole aggregation pass over the tracked files. -/
def runStats (files : List FileIn) : Stats :=
  files.foldl processFile ⟨0, [], [], []⟩

/-! ### The directory tree builder (`build_directory_tree`) -/

inductive DirNode : Type where
  | mk : Nat → Nat → List (List Char × DirNode) → DirNode

def DirNode.files : DirNode → Nat
  | .mk f _ _ => f

def DirNode.lines : DirNode → Nat
  | .mk _ l _ => l

def DirNode.subdirs : DirNode → List (List Char × DirNode)
  | .mk _ _ s => s

/-- Insert one file (its directory segments and total line count) into the
tree: walk the segments, creating each child if absent, incrementing every
visited child's `files` by 1 and `lines` by the file's line count, and
recursing into it.  The walked node's own counters are never touched, which
in particular means the root's counters stay at their initial value. -/
def insertFile : DirNode → List (List Char) → Nat → DirNode
  | t, [], _ => t
  | t, d :: ds, file_lines =>
      let child := (getA t.subdirs d).getD (DirNode.mk 0 0 [])
      let child2 := DirNode.mk (child.files + 1) (child.lines + file_lines) child.subdirs
      let child3 := insertFile child2 ds file_lines
      DirNode.mk t.files t.lines (updAssoc t.subdirs d (fun _ => child3) child3)

/-- `build_directory_tree`: fold every tracked file into the tree, keyed by
its directory segments (`parts[:-1]`) with its record's total line count. -/
def build_directory_tree (files : List FileIn) : DirNode :=
  files.foldl (fun t f => insertFile t (dirOf f.1) (fileLines f.2)) (DirNode.mk 0 0 [])

/-- Navigate to the node addressed by a segment list (the root for `[]`). -/
def nodeAt : DirNode → List (List Char) → Option DirNode
  | t, [] => some t
  | t, d :: ds =>
      match getA t.subdirs d with
      | none => none
      | some c => nodeAt c ds

/-- The `(files, lines)` counters of the node at `p`, when it exists. -/
def statsAt (t : DirNode) (p : List (List Char)) : Option (Nat × Nat) :=
  (nodeAt t p).map (fun n => (n.files, n.lines))

/-- `p` is a (not necessarily proper) leading segment sequence of `d`. -/
def PathPre (p d : List (List Char)) : Prop := d.take p.length = p

instance (p d : List (List Char)) : Decidable (PathPre p d) :=
  inferInstanceAs (Decidable (d.take p.length = p))

/-- Sum of the direct children's `lines` counters of a node. -/
def subSum (t : DirNode) : Nat := (t.subdirs.map (fun e => e.2.lines)).sum

/-- Total lines of the input files lying directly in directory `p`. -/
def directSum (files : List FileIn) (p : List (List Char)) : Nat :=
  ((files.filter (fun f => decide (dirOf f.1 = p))).map (fun f => fileLines f.2)).sum

/-! ### The report renderer -/

/-- `format_percentage`, with the formatted string abstracted to its
rational value: `0` when the whole is `0`, else `part / whole * 100`. -/
def format_percentage (part whole : Nat) : ℚ :=
  if whole = 0 then 0 else (part : ℚ) / (whole : ℚ) * 100

/-- Insert `x` into a list after every element whose key is `≥ key x`
(one step of a stable descending insertion sort). -/
def insDesc {α : Type} (key : α → Nat) (x : α) : List α → List α
  | [] => [x]
  | y :: ys => if key x ≤ key y then y :: insDesc key x ys else x :: y :: ys

/-- `sorted(l, key=key, reverse=True)`: a stable sort by descending key
(ties keep their original relative order). -/
def pySortedBy {α : Type} (key : α → Nat) (l : List α) : List α :=
  l.foldl (fun acc x => insDesc key x acc) []

theorem sizeOf_subdirs_lt (t : DirNode) : sizeOf t.subdirs < sizeOf t := by
  cases t with
  | mk f l s => simp [DirNode.subdirs]

theorem sizeOf_snd_lt_of_mem {c : List Char} {d : DirNode} {l : List (List Char × DirNode)}
    (h : (c, d) ∈ l) : sizeOf d < sizeOf l := by
  have h1 : sizeOf (c, d) < sizeOf l := List.sizeOf_lt_of_mem h
  have h2 : sizeOf d < sizeOf (c, d) := by simp
  omega

theorem perm_sizeOf {α : Type} [SizeOf α] {l1 l2 : List α} (h : l1.Perm l2) :
    sizeOf l1 = sizeOf l2 := by
  induction h with
  | nil => rfl
  | cons x _ ih => simp only [List.cons.sizeOf_spec]; omega
  | swap x y l => simp only [List.cons.sizeOf_spec]; omega
  | trans _ _ ih1 ih2 => omega

theorem insDesc_perm {α : Type} (key : α → Nat) (x : α) (l : List α) :
    (insDesc key x l).Perm (x :: l) := by
  induction l with
  | nil => simp [insDesc]
  | cons y ys ih =>
      by_cases h : key x ≤ key y
      · simp only [insDesc, if_pos h]
        exact (ih.cons y).trans (List.Perm.swap x y ys)
      · simp [insDesc, if_neg h]

theorem foldl_insDesc_perm {α : Type} (key : α → Nat) (l : List α) (acc : List α) :
    (l.foldl (fun acc x => insDesc key x acc) acc).Perm (acc ++ l) := by
  induction l generalizing acc with
  | nil => simp
  | cons x xs ih =>
      have h1 := ih (insDesc key x acc)
      have h2 : (insDesc key x acc ++ xs).Perm (acc ++ x :: xs) := by
        have := (insDesc_perm key x acc).append_right xs
        exact this.trans List.perm_middle.symm
      exact h1.trans h2

theorem pySortedBy_perm {α : Type} (key : α → Nat) (l : List α) :
    (pySortedBy key l).Perm l := by
  have := foldl_insDesc_perm key l []
  simpa [pySortedBy] using this

theorem sizeOf_pySortedBy {α : Type} [SizeOf α] (key : α → Nat) (l : List α) :
    sizeOf (pySortedBy key l) = sizeOf l :=
  perm_sizeOf (pySortedBy_perm key l)

/-- `bool → Prop → ...` keyed-nodup property of a whole tree, computed
recursively: every node's children carry pairwise distinct names. -/
def treeNodup (t : DirNode) : Bool :=
  decide ((t.subdirs.map (fun e => e.1)).Nodup) &&
    t.subdirs.attach.all (fun e => treeNodup e.1.2)
termination_by sizeOf t
decreasing_by
  obtain ⟨⟨c, d⟩, hmem⟩ := e
  have h1 : sizeOf d < sizeOf t.subdirs := sizeOf_snd_lt_of_mem hmem
  have h2 := sizeOf_subdirs_lt t
  simp only
  omega

structure PrintedDir where
  path : List (List Char)
  plines : Nat
  pfiles : Nat
  pct : ℚ
  deriving DecidableEq, Repr

/-- The loop of `print_directory_tree` over an (already sorted) children
list.  For each child the percentage is formatted (safely), then
`lines / total_lines` is evaluated — a `ZeroDivisionError`
(`Except.error ()`) when `total_lines == 0` — and when the ratio exceeds
`0.01` the child is printed and its own children are sorted and recursed
into with the *same* `total`.  Output entries carry the full path from the
root, the printed line/file counters and the printed percentage, in print
order. -/
def printKids (total : Nat) (base : List (List Char)) :
    List (List Char × DirNode) → Except Unit (List PrintedDir)
  | [] => Except.ok []
  | (dname, d) :: rest =>
      if total = 0 then Except.error ()
      else if (d.lines : ℚ) / (total : ℚ) > 1 / 100 then
        match printKids total (base ++ [dname]) (pySortedBy (fun e => e.2.lines) d.subdirs),
              printKids total base rest with
        | Except.ok sub, Except.ok more =>
            Except.ok (⟨base ++ [dname], d.lines, d.files, format_percentage d.lines total⟩ :: (sub ++ more))
        | Except.error e, _ => Except.error e
        | _, Except.error e => Except.error e
      else printKids total base rest
termination_by l => sizeOf l
decreasing_by
  · have h1 : sizeOf (pySortedBy (fun e => e.2.lines) d.subdirs) = sizeOf d.subdirs :=
      sizeOf_pySortedBy _ _
    have h2 := sizeOf_subdirs_lt d
    simp only [List.cons.sizeOf_spec, Prod.mk.sizeOf_spec]
    omega
  · simp only [List.cons.sizeOf_spec]
    omega
  · simp only [List.cons.sizeOf_spec]
    omega

/-- `print_directory_tree(tree, total_lines=total)`: sort the root's
children by descending line count and run the loop. -/
def print_directory_tree (t : DirNode) (total : Nat) : Except Unit (List PrintedDir) :=
  printKids total [] (pySortedBy (fun e => e.2.lines) t.subdirs)

/-! ### Association-list lemmas -/

theorem getA_updAssoc_self {κ β : Type} [DecidableEq κ] (m : List (κ × β)) (k : κ) (f : β → β) (d : β) :
    getA (updAssoc m k f d) k = some (f ((getA m k).getD d)) := by
  induction m with
  | nil => simp [updAssoc, getA]
  | cons e rest ih =>
      obtain ⟨k', v⟩ := e
      by_cases h : k' = k
      · subst h
        simp [updAssoc, getA]
      · simp [updAssoc, getA, h, ih]

theorem getA_updAssoc_ne {κ β : Type} [DecidableEq κ] (m : List (κ × β)) (k k' : κ) (f : β → β) (d : β)
    (h : k' ≠ k) : getA (updAssoc m k f d) k' = getA m k' := by
  induction m with
  | nil => simp [updAssoc, getA, Ne.symm h]
  | cons e rest ih =>
      obtain ⟨k0, v⟩ := e
      by_cases h0 : k0 = k
      · subst h0
        have : k0 ≠ k' := fun hc => h (hc ▸ rfl)
        simp [updAssoc, getA, this]
      · by_cases h1 : k0 = k'
        · subst h1
          simp [updAssoc, getA, h0]
        · simp [updAssoc, getA, h0, h1, ih]

/-- Projected sum over the values of an association list. -/
def sumProj {κ β : Type} (g : β → Nat) (m : List (κ × β)) : Nat :=
  (m.map (fun e => g e.2)).sum

theorem sumProj_updAssoc {κ β : Type} [DecidableEq κ] (g : β → Nat) (m : List (κ × β)) (k : κ)
    (f : β → β) (d : β) (δ : Nat) (hf : ∀ b, g (f b) = g b + δ) (hd : g (f d) = δ) :
    sumProj g (updAssoc m k f d) = sumProj g m + δ := by
  induction m with
  | nil => simp [updAssoc, sumProj, hd]
  | cons e rest ih =>
      obtain ⟨k', v⟩ := e
      by_cases h : k' = k
      · subst h
        simp [updAssoc, sumProj, hf v]
        omega
      · simp only [updAssoc, if_neg h, sumProj, List.map_cons, List.sum_cons] at *
        omega

theorem keys_updAssoc {κ β : Type} [DecidableEq κ] (m : List (κ × β)) (k : κ) (f : β → β) (d : β) :
    (updAssoc m k f d).map (fun e => e.1) =
      if k ∈ m.map (fun e => e.1) then m.map (fun e => e.1) else m.map (fun e => e.1) ++ [k] := by
  induction m with
  | nil => simp [updAssoc]
  | cons e rest ih =>
      obtain ⟨k', v⟩ := e
      by_cases h : k' = k
      · subst h
        simp [updAssoc]
      · have h' : k ≠ k' := fun hc => h (hc ▸ rfl)
        by_cases hmem : k ∈ rest.map (fun e => e.1)
        · simp [updAssoc, h, ih, hmem, h']
        · simp [updAssoc, h, ih, hmem, h']

theorem nodup_keys_updAssoc {κ β : Type} [DecidableEq κ] (m : List (κ × β)) (k : κ) (f : β → β)
    (d : β) (h : (m.map (fun e => e.1)).Nodup) : ((updAssoc m k f d).map (fun e => e.1)).Nodup := by
  rw [keys_updAssoc]
  by_cases hmem : k ∈ m.map (fun e => e.1)
  · simpa [hmem] using h
  · simp only [if_neg hmem]
    exact (List.nodup_append_comm.mpr (by simpa using List.Nodup.cons hmem h))

theorem mem_updAssoc {κ β : Type} [DecidableEq κ] {m : List (κ × β)} {k : κ} {f : β → β} {d : β}
    {e : κ × β} (h : e ∈ updAssoc m k f d) : e ∈ m ∨ e = (k, f ((getA m k).getD d)) := by
  induction m with
  | nil => simp [updAssoc] at h; simp [getA, h]
  | cons e0 rest ih =>
      obtain ⟨k', v⟩ := e0
      by_cases h0 : k' = k
      · subst h0
        simp only [updAssoc, if_pos rfl] at h
        rcases List.mem_cons.mp h with h1 | h1
        · right; simp [getA, h1]
        · left; exact List.mem_cons_of_mem _ h1
      · simp only [updAssoc, if_neg h0] at h
        rcases List.mem_cons.mp h with h1 | h1
        · left; simp [h1]
        · rcases ih h1 with h2 | h2
          · left; exact List.mem_cons_of_mem _ h2
          · right; simpa [getA, h0] using h2

theorem getA_eq_none_iff {κ β : Type} [DecidableEq κ] (m : List (κ × β)) (k : κ) :
    getA m k = none ↔ k ∉ m.map (fun e => e.1) := by
  induction m with
  | nil => simp [getA]
  | cons e rest ih =>
      obtain ⟨k', v⟩ := e
      by_cases h : k' = k
      · subst h
        simp [getA]
      · have h' : k ≠ k' := fun hc => h (hc ▸ rfl)
        simp [getA, h, h', ih]

theorem getA_mem {κ β : Type} [DecidableEq κ] {m : List (κ × β)} {k : κ} {v : β}
    (h : getA m k = some v) : (k, v) ∈ m := by
  induction m with
  | nil => simp [getA] at h
  | cons e rest ih =>
      obtain ⟨k', w⟩ := e
      by_cases h0 : k' = k
      · subst h0
        simp [getA] at h
        simp [h]
      · simp only [getA, if_neg h0] at h
        exact List.mem_cons_of_mem _ (ih h)

theorem getA_of_mem_nodup {κ β : Type} [DecidableEq κ] {m : List (κ × β)} {k : κ} {v : β}
    (hn : (m.map (fun e => e.1)).Nodup) (h : (k, v) ∈ m) : getA m k = some v := by
  induction m with
  | nil => simp at h
  | cons e rest ih =>
      obtain ⟨k', w⟩ := e
      rcases List.mem_cons.mp h with h0 | h0
      · obtain ⟨h1, h2⟩ := Prod.mk.injEq .. ▸ h0
        subst h1; subst h2
        simp [getA]
      · have hk : k' ≠ k := by
          intro hc
          subst hc
          have : k' ∈ rest.map (fun e => e.1) := List.mem_map.mpr ⟨(k', v), h0, rfl⟩
          exact (List.nodup_cons.mp (by simpa using hn)).1 this
        simp only [getA, if_neg hk]
        exact ih (List.nodup_cons.mp (by simpa using hn)).2 h0

theorem getA_eq_of_perm {κ β : Type} [DecidableEq κ] {l1 l2 : List (κ × β)}
    (hn : (l1.map (fun e => e.1)).Nodup) (hp : l1.Perm l2) (k : κ) : getA l1 k = getA l2 k := by
  have hn2 : (l2.map (fun e => e.1)).Nodup := (hp.map (fun e => e.1)).nodup_iff.mp hn
  cases h1 : getA l1 k with
  | none =>
      cases h2 : getA l2 k with
      | none => rfl
      | some v =>
          have := hp.mem_iff.mpr (getA_mem h2)
          have hnone := (getA_eq_none_iff l1 k).mp h1
          exact absurd (List.mem_map.mpr ⟨(k, v), this, rfl⟩) hnone
  | some v =>
      have := getA_of_mem_nodup hn2 (hp.mem_iff.mp (getA_mem h1))
      rw [this]

/-! ### Stable-sort lemmas -/

theorem mem_insDesc {α : Type} (key : α → Nat) (x : α) (l : List α) (z : α) :
    z ∈ insDesc key x l ↔ z = x ∨ z ∈ l := by
  rw [(insDesc_perm key x l).mem_iff]
  simp

theorem insDesc_sorted {α : Type} (key : α → Nat) (x : α) (l : List α)
    (h : l.Pairwise (fun a b => key b ≤ key a)) :
    (insDesc key x l).Pairwise (fun a b => key b ≤ key a) := by
  induction l with
  | nil => simp [insDesc]
  | cons y ys ih =>
      rcases List.pairwise_cons.mp h with ⟨hy, hys⟩
      by_cases hxy : key x ≤ key y
      · simp only [insDesc, if_pos hxy]
        refine List.pairwise_cons.mpr ⟨?_, ih hys⟩
        intro z hz
        rcases (mem_insDesc key x ys z).mp hz with h1 | h1
        · subst h1; exact hxy
        · exact hy z h1
      · simp only [insDesc, if_neg hxy]
        refine List.pairwise_cons.mpr ⟨?_, h⟩
        intro z hz
        rcases List.mem_cons.mp hz with h1 | h1
        · subst h1; omega
        · have := hy z h1; omega

theorem pySortedBy_sorted {α : Type} (key : α → Nat) (l : List α) :
    (pySortedBy key l).Pairwise (fun a b => key b ≤ key a) := by
  suffices h : ∀ acc, acc.Pairwise (fun a b => key b ≤ key a) →
      (l.foldl (fun acc x => insDesc key x acc) acc).Pairwise (fun a b => key b ≤ key a) by
    exact h [] (by simp)
  induction l with
  | nil => intro acc h; simpa using h
  | cons x xs ih =>
      intro acc h
      exact ih (insDesc key x acc) (insDesc_sorted key x acc h)

theorem insDesc_filter {α : Type} (key : α → Nat) (x : α) (l : List α) (v : Nat)
    (h : l.Pairwise (fun a b => key b ≤ key a)) :
    (insDesc key x l).filter (fun a => decide (key a = v)) =
      l.filter (fun a => decide (key a = v)) ++ (if key x = v then [x] else []) := by
  induction l with
  | nil => by_cases hx : key x = v <;> simp [insDesc, hx]
  | cons y ys ih =>
      rcases List.pairwise_cons.mp h with ⟨hy, hys⟩
      by_cases hxy : key x ≤ key y
      · have hrec := ih hys
        simp only [insDesc, if_pos hxy, List.filter_cons, hrec]
        by_cases hyv : key y = v
        · simp [hyv]
        · simp [hyv]
      · have h1 : ∀ z ∈ y :: ys, key z < key x := by
          intro z hz
          rcases List.mem_cons.mp hz with h2 | h2
          · subst h2; omega
          · have := hy z h2; omega
        rw [insDesc, if_neg hxy, List.filter_cons]
        by_cases hxv : key x = v
        · have h2 : (y :: ys).filter (fun a => decide (key a = v)) = [] := by
            apply List.filter_eq_nil_iff.mpr
            intro z hz
            have := h1 z hz
            simp only [decide_eq_true_eq]
            omega
          rw [h2]
          simp [hxv]
        · simp [hxv]

theorem pySortedBy_filter {α : Type} (key : α → Nat) (l : List α) (v : Nat) :
    (pySortedBy key l).filter (fun a => decide (key a = v)) =
      l.filter (fun a => decide (key a = v)) := by
  suffices h : ∀ acc, acc.Pairwise (fun a b => key b ≤ key a) →
      (l.foldl (fun acc x => insDesc key x acc) acc).filter (fun a => decide (key a = v)) =
        acc.filter (fun a => decide (key a = v)) ++ l.filter (fun a => decide (key a = v)) by
    simpa using h [] (by simp)
  induction l with
  | nil => intro acc h; simp
  | cons x xs ih =>
      intro acc h
      rw [List.foldl_cons, ih (insDesc key x acc) (insDesc_sorted key x acc h),
        insDesc_filter key x acc v h, List.filter_cons]
      by_cases hxv : key x = v <;> simp [hxv]

/-! ### Parser lemmas -/

theorem fileLines_bumpCount (m : List (List Char × Nat)) (a : List Char) :
    fileLines (bumpCount m a) = fileLines m + 1 :=
  sumProj_updAssoc (fun n => n) m a (fun n => n + 1) 0 1 (fun _ => rfl) rfl

theorem blameStep_ignore (st : BlameSt) (line : List Char)
    (h1 : authTagL.isPrefixOf line = false) (h2 : isHex40 line = false) :
    blameStep st line = st := by
  simp [blameStep, h1, h2]

/-- A line matching the commit regex cannot carry the author literal: its
second character would have to be both `u` and a lowercase hex digit. -/
theorem hex_no_authTag {l : List Char} (h : isHex40 l = true) :
    authTagL.isPrefixOf l = false := by
  cases hb : authTagL.isPrefixOf l
  · rfl
  · exfalso
    obtain ⟨t, ht⟩ := List.isPrefixOf_iff_prefix.mp hb
    subst ht
    simp only [isHex40, Bool.and_eq_true, List.all_eq_true, decide_eq_true_eq] at h
    have h40 : (authTagL ++ t).take 40 = 'a' :: 'u' :: ((chars ("thor ") ++ t).take 38) := rfl
    have hu : 'u' ∈ (authTagL ++ t).take 40 := by
      rw [h40]
      exact List.mem_cons_of_mem _ (List.mem_cons_self _ _)
    have := h.2 'u' hu
    simp [isHexLower] at this

theorem isHex40_head {l : List Char} (h : isHex40 l = true) :
    ∃ c rest, l = c :: rest ∧ isHexLower c = true := by
  simp only [isHex40, Bool.and_eq_true, List.all_eq_true, decide_eq_true_eq] at h
  cases l with
  | nil => simp at h
  | cons c rest =>
      refine ⟨c, rest, rfl, ?_⟩
      apply h.2
      have : (c :: rest).take 40 = c :: rest.take 39 := rfl
      rw [this]
      exact List.mem_cons_self _ _

theorem hexLower_not_ws {c : Char} (h : isHexLower c = true) : c.isWhitespace = false := by
  cases hw : c.isWhitespace
  · rfl
  · exfalso
    have hw' : (c = ' ' || c = '\t' || c = '\r' || c = '\n') = true := by
      rw [← hw]; simp [Char.isWhitespace]
    simp only [Bool.or_eq_true, decide_eq_true_eq] at hw'
    rcases hw' with ((h1 | h1) | h1) | h1 <;> (subst h1; exact absurd h (by decide))

theorem hex_firstTok_ne {l : List Char} (h : isHex40 l = true) : firstTok l ≠ [] := by
  obtain ⟨c, rest, hl, hc⟩ := isHex40_head h
  subst hl
  have hws := hexLower_not_ws hc
  simp [firstTok, List.dropWhile_cons, hws, List.takeWhile_cons]

theorem blameStep_sha (st : BlameSt) {line : List Char} (h : isHex40 line = true) :
    blameStep st line = (some (firstTok line), st.2) := by
  simp [blameStep, hex_no_authTag h, h]

/-- A line that is neither an author line nor a line starting with a tab:
everything the parser may see between the commit header and the content line
of a well-formed block. -/
def metaOk (m : List Char) : Prop :=
  authTagL.isPrefixOf m = false ∧ m.head? ≠ some '\t'

instance (m : List Char) : Decidable (metaOk m) :=
  inferInstanceAs (Decidable (_ ∧ _))

theorem blameStep_meta (st : BlameSt) {m : List Char} (hm : metaOk m)
    (ht : truthyS st.1 = true) :
    (blameStep st m).2 = st.2 ∧ truthyS (blameStep st m).1 = true := by
  cases hhex : isHex40 m
  · rw [blameStep_ignore st m hm.1 hhex]
    exact ⟨rfl, ht⟩
  · rw [blameStep_sha st hhex]
    exact ⟨rfl, by simp [truthyS, hex_firstTok_ne hhex]⟩

theorem tab_ignored (st : BlameSt) {m : List Char} (hm : m.head? = some '\t') :
    blameStep st m = st := by
  obtain ⟨rest, hrest⟩ : ∃ rest, m = '\t' :: rest := by
    cases m with
    | nil => simp at hm
    | cons c cs => simp at hm; exact ⟨cs, by rw [hm]⟩
  subst hrest
  have h1 : authTagL.isPrefixOf ('\t' :: rest) = false := by
    simp [authTagL, chars, List.isPrefixOf]
  have h2 : isHex40 ('\t' :: rest) = false := by
    cases hb : isHex40 ('\t' :: rest)
    · rfl
    · obtain ⟨c, r, hcr, hc⟩ := isHex40_head hb
      injection hcr with h3 h4
      subst h3
      exact absurd hc (by decide)
  exact blameStep_ignore st _ h1 h2

theorem foldl_metas {ms : List (List Char)} (hm : ∀ m ∈ ms, metaOk m) :
    ∀ st : BlameSt, truthyS st.1 = true →
      (ms.foldl blameStep st).2 = st.2 ∧ truthyS (ms.foldl blameStep st).1 = true := by
  induction ms with
  | nil => intro st ht; exact ⟨rfl, ht⟩
  | cons m rest ih =>
      intro st ht
      have hm0 := hm m (List.mem_cons_self _ _)
      obtain ⟨h1, h2⟩ := blameStep_meta st hm0 ht
      have := ih (fun x hx => hm x (List.mem_cons_of_mem _ hx)) (blameStep st m) h2
      rw [List.foldl_cons]
      exact ⟨this.1.trans h1, this.2⟩

/-- One well-formed porcelain block: the commit-header line, metadata lines
before the author line, the author line `"author " ++ aname`, metadata lines
after it, and the tab-prefixed content line. -/
structure Block where
  sha : List Char
  pre : List (List Char)
  aname : List Char
  post : List (List Char)
  content : List Char

def Block.lineList (b : Block) : List (List Char) :=
  b.sha :: (b.pre ++ (authTagL ++ b.aname) :: b.post ++ [b.content])

def Block.wf (b : Block) : Prop :=
  isHex40 b.sha = true ∧ b.aname ≠ [] ∧ (∀ m ∈ b.pre, metaOk m) ∧
    (∀ m ∈ b.post, metaOk m) ∧ b.content.head? = some '\t'

instance (b : Block) : Decidable b.wf :=
  inferInstanceAs (Decidable (_ ∧ _ ∧ _ ∧ _ ∧ _))

/-- The raw text of a sequence of blocks, as the line list the parser scans. -/
def porcelain (bs : List Block) : List (List Char) := (bs.map Block.lineList).flatten

theorem blameStep_author (st : BlameSt) (aname : List Char) (ht : truthyS st.1 = true)
    (ha : aname ≠ []) :
    blameStep st (authTagL ++ aname) = (st.1, bumpCount st.2 aname) := by
  have h1 : authTagL.isPrefixOf (authTagL ++ aname) = true :=
    List.isPrefixOf_iff_prefix.mpr (List.prefix_append _ _)
  have h2 : (authTagL ++ aname).drop 7 = aname := List.drop_left authTagL aname
  simp [blameStep, h1, h2, ht, ha]

theorem block_fold {b : Block} (hb : b.wf) (st : BlameSt) :
    fileLines ((b.lineList).foldl blameStep st).2 = fileLines st.2 + 1 := by
  obtain ⟨hsha, haname, hpre, hpost, hcontent⟩ := hb
  have ht1 : truthyS (some (firstTok b.sha)) = true := by
    simp [truthyS, hex_firstTok_ne hsha]
  obtain ⟨hc1, ht2⟩ := foldl_metas hpre (some (firstTok b.sha), st.2) ht1
  set stA := b.pre.foldl blameStep (some (firstTok b.sha), st.2) with hstA
  obtain ⟨hc3, _⟩ := foldl_metas hpost (stA.1, bumpCount stA.2 b.aname) (by simpa using ht2)
  have e : (b.lineList).foldl blameStep st =
      blameStep (b.post.foldl blameStep (stA.1, bumpCount stA.2 b.aname)) b.content := by
    simp only [Block.lineList, List.foldl_cons, List.foldl_append, List.foldl_nil]
    rw [blameStep_sha st hsha, ← hstA, blameStep_author stA b.aname ht2 haname]
  rw [e, tab_ignored _ hcontent, hc3]
  simp only
  rw [fileLines_bumpCount]
  have hc1' : stA.2 = st.2 := hc1
  rw [hc1']

theorem blocks_fold {bs : List Block} (h : ∀ b ∈ bs, b.wf) (st : BlameSt) :
    fileLines ((porcelain bs).foldl blameStep st).2 = fileLines st.2 + bs.length := by
  induction bs generalizing st with
  | nil => simp [porcelain]
  | cons b rest ih =>
      have hb := h b (List.mem_cons_self _ _)
      have hrest := fun x hx => h x (List.mem_cons_of_mem _ hx)
      have e : porcelain (b :: rest) = b.lineList ++ porcelain rest := by
        simp [porcelain]
      rw [e, List.foldl_append, ih hrest, block_fold hb st, List.length_cons]
      omega

theorem contentCount_block {b : Block} (hb : b.wf) : contentCount b.lineList = 1 := by
  obtain ⟨hsha, haname, hpre, hpost, hcontent⟩ := hb
  have hshaT : (fun l => decide (List.head? l = some '\t')) b.sha = false := by
    obtain ⟨c, rest, hcr, hc⟩ := isHex40_head hsha
    simp only
    rw [hcr]
    simp only [List.head?_cons, Option.some.injEq, decide_eq_false_iff_not]
    intro hcc
    subst hcc
    exact absurd hc (by decide)
  have hmetaT : ∀ m : List Char, metaOk m →
      (fun l => decide (List.head? l = some '\t')) m = false := by
    intro m hm
    simpa using hm.2
  have hauthT : (fun l => decide (List.head? l = some '\t')) (authTagL ++ b.aname) = false := rfl
  simp only [contentCount, Block.lineList, List.countP_cons, List.countP_append, hshaT]
  rw [List.countP_eq_zero.mpr (fun m hm => by simpa using hmetaT m (hpre m hm)),
      List.countP_eq_zero.mpr (fun m hm => by simpa using hmetaT m (hpost m hm))]
  simp [List.countP_cons, hauthT, hcontent, authTagL, chars]

theorem contentCount_porcelain {bs : List Block} (h : ∀ b ∈ bs, b.wf) :
    contentCount (porcelain bs) = bs.length := by
  induction bs with
  | nil => simp [porcelain, contentCount]
  | cons b rest ih =>
      have e : porcelain (b :: rest) = b.lineList ++ porcelain rest := by
        simp [porcelain]
      have h1 := contentCount_block (h b (List.mem_cons_self _ _))
      have h2 := ih (fun x hx => h x (List.mem_cons_of_mem _ hx))
      simp only [contentCount] at h1 h2 ⊢
      rw [e, List.countP_append, h1, h2, List.length_cons]
      omega

/-! ### Aggregator lemmas -/

theorem runStats_snoc (files : List FileIn) (f : FileIn) :
    runStats (files ++ [f]) = processFile (runStats files) f := by
  simp [runStats, List.foldl_append]

theorem processFile_total (s : Stats) (f : FileIn) :
    (processFile s f).total_lines = s.total_lines + fileLines f.2 := rfl

theorem processFile_ext (s : Stats) (f : FileIn) :
    (processFile s f).extension_stats =
      updAssoc s.extension_stats (splitextExt f.1)
        (fun es => ⟨es.files + 1, es.lines + fileLines f.2⟩) ⟨0, 0⟩ := rfl

theorem processFile_author (s : Stats) (f : FileIn) :
    (processFile s f).author_stats =
      f.2.foldl (fun t e => updAssoc t e.1 (fun n => n + e.2) 0) s.author_stats := rfl

theorem processFile_ae (s : Stats) (f : FileIn) :
    (processFile s f).author_ext_stats =
      f.2.foldl (fun t e =>
        updAssoc t e.1 (fun inner => updAssoc inner (splitextExt f.1) (fun n => n + e.2) 0) [])
        s.author_ext_stats := rfl

/-- The part of a record attributed to author `a`: sum of the counts of its
entries keyed by `a`. -/
def recSum (a : List Char) (r : List (List Char × Nat)) : Nat :=
  ((r.filter (fun e => decide (e.1 = a))).map (fun e => e.2)).sum

theorem recSum_cons (a k : List Char) (v : Nat) (rest : List (List Char × Nat)) :
    recSum a ((k, v) :: rest) = (if k = a then v else 0) + recSum a rest := by
  by_cases h : k = a <;> simp [recSum, List.filter_cons, h]

theorem recSum_eq_zero {a : List Char} {r : List (List Char × Nat)}
    (h : a ∉ r.map (fun e => e.1)) : recSum a r = 0 := by
  have : r.filter (fun e => decide (e.1 = a)) = [] := by
    apply List.filter_eq_nil_iff.mpr
    intro e he
    simp only [decide_eq_true_eq]
    intro hc
    exact h (List.mem_map.mpr ⟨e, he, hc⟩)
  simp [recSum, this]


theorem authFold_getA (r : List (List Char × Nat)) (a : List Char) :
    ∀ t : List (List Char × Nat),
      getA (r.foldl (fun t e => updAssoc t e.1 (fun n => n + e.2) 0) t) a =
        if a ∈ r.map (fun e => e.1) then some ((getA t a).getD 0 + recSum a r) else getA t a := by
  induction r with
  | nil => intro t; simp
  | cons en rest ih =>
      intro t
      obtain ⟨k, v⟩ := en
      rw [List.foldl_cons, ih, recSum_cons]
      by_cases hk : k = a
      · subst hk
        rw [getA_updAssoc_self]
        by_cases hmem : k ∈ rest.map (fun e => e.1)
        · simp [hmem]
          omega
        · rw [recSum_eq_zero hmem]
          simp [hmem]
      · rw [getA_updAssoc_ne _ _ _ _ _ (fun hc => hk hc.symm)]
        have hne : a ≠ k := fun hc => hk hc.symm
        by_cases hmem : a ∈ rest.map (fun e => e.1)
        · simp [hmem, hk, hne]
        · simp [hmem, hk, hne]

/-- Number of input files carrying author `a` in their record. -/
def authCnt (a : List Char) (files : List FileIn) : Nat :=
  files.countP (fun f => decide (a ∈ f.2.map (fun e => e.1)))

/-- Total lines attributed to author `a` over all input files. -/
def authSum (a : List Char) (files : List FileIn) : Nat :=
  (files.map (fun f => recSum a f.2)).sum

theorem authCnt_snoc (a : List Char) (l : List FileIn) (f : FileIn) :
    authCnt a (l ++ [f]) = authCnt a l +
      (if a ∈ f.2.map (fun e => e.1) then 1 else 0) := by
  by_cases hmem : a ∈ f.2.map (fun e => e.1) <;>
    simp [authCnt, List.countP_append, List.countP_cons, hmem]

theorem authSum_snoc (a : List Char) (l : List FileIn) (f : FileIn) :
    authSum a (l ++ [f]) = authSum a l + recSum a f.2 := by
  simp [authSum]

theorem authSum_zero {a : List Char} {l : List FileIn} (h : authCnt a l = 0) :
    authSum a l = 0 := by
  apply List.sum_eq_zero
  intro x hx
  obtain ⟨f, hf, hfx⟩ := List.mem_map.mp hx
  have := List.countP_eq_zero.mp h f hf
  simp only [decide_eq_true_eq] at this
  rw [← hfx, recSum_eq_zero this]

theorem author_char (files : List FileIn) (a : List Char) :
    getA (runStats files).author_stats a =
      if authCnt a files = 0 then none else some (authSum a files) := by
  induction files using List.reverseRecOn with
  | nil => simp [runStats, getA, authCnt, authSum]
  | append_singleton l f ih =>
      rw [runStats_snoc, processFile_author, authFold_getA, ih, authCnt_snoc, authSum_snoc]
      by_cases hmem : a ∈ f.2.map (fun e => e.1)
      · rw [if_pos hmem, if_pos hmem]
        by_cases hcnt : authCnt a l = 0
        · rw [if_pos hcnt, if_neg (by omega)]
          simp [authSum_zero hcnt]
        · rw [if_neg hcnt, if_neg (by omega)]
          simp
      · rw [if_neg hmem, if_neg hmem, recSum_eq_zero hmem]
        simp

/-- Number of input files whose extension is `e`. -/
def extCnt (e : List Char) (files : List FileIn) : Nat :=
  files.countP (fun f => decide (splitextExt f.1 = e))

/-- Total lines of the input files whose extension is `e`. -/
def extSum (e : List Char) (files : List FileIn) : Nat :=
  ((files.filter (fun f => decide (splitextExt f.1 = e))).map (fun f => fileLines f.2)).sum

theorem extCnt_snoc (e : List Char) (l : List FileIn) (f : FileIn) :
    extCnt e (l ++ [f]) = extCnt e l + (if splitextExt f.1 = e then 1 else 0) := by
  simp [extCnt, List.countP_append, List.countP_cons]

theorem extSum_snoc (e : List Char) (l : List FileIn) (f : FileIn) :
    extSum e (l ++ [f]) = extSum e l + (if splitextExt f.1 = e then fileLines f.2 else 0) := by
  by_cases h : splitextExt f.1 = e <;>
    simp [extSum, List.filter_append, List.filter_cons, h]

theorem extSum_zero {e : List Char} {l : List FileIn} (h : extCnt e l = 0) : extSum e l = 0 := by
  have : l.filter (fun f => decide (splitextExt f.1 = e)) = [] := by
    apply List.filter_eq_nil_iff.mpr
    intro f hf
    exact List.countP_eq_zero.mp h f hf
  simp [extSum, this]

theorem ext_char (files : List FileIn) (e : List Char) :
    getA (runStats files).extension_stats e =
      if extCnt e files = 0 then none else some ⟨extCnt e files, extSum e files⟩ := by
  induction files using List.reverseRecOn with
  | nil => simp [runStats, getA, extCnt, extSum]
  | append_singleton l f ih =>
      rw [runStats_snoc, processFile_ext, extCnt_snoc, extSum_snoc]
      by_cases hx : splitextExt f.1 = e
      · rw [hx, getA_updAssoc_self, ih]
        simp only [eq_self_iff_true, if_true]
        by_cases hcnt : extCnt e l = 0
        · simp [hcnt, extSum_zero hcnt]
        · simp [hcnt]
      · rw [getA_updAssoc_ne _ _ _ _ _ (fun hc => hx hc.symm), ih, if_neg hx, if_neg hx]
        simp

/-- Lookup in the nested author-by-extension table. -/
def aeGet (t : List (List Char × List (List Char × Nat))) (a e : List Char) : Option Nat :=
  (getA t a).bind (fun inner => getA inner e)

theorem aeBump_getA (t : List (List Char × List (List Char × Nat))) (k : List Char) (v : Nat)
    (x a e : List Char) :
    aeGet (updAssoc t k (fun inner => updAssoc inner x (fun n => n + v) 0) []) a e =
      if a = k ∧ e = x then some ((aeGet t a e).getD 0 + v) else aeGet t a e := by
  by_cases hak : a = k
  · subst hak
    have h1 : getA (updAssoc t a (fun inner => updAssoc inner x (fun n => n + v) 0) []) a =
        some (updAssoc ((getA t a).getD []) x (fun n => n + v) 0) :=
      getA_updAssoc_self t a (fun inner => updAssoc inner x (fun n => n + v) 0) []
    by_cases hex : e = x
    · subst hex
      rw [if_pos ⟨rfl, rfl⟩]
      simp only [aeGet, h1, Option.some_bind]
      rw [getA_updAssoc_self]
      cases hg : getA t a with
      | none => simp [getA]
      | some inner => simp
    · rw [if_neg (fun hc => hex hc.2)]
      simp only [aeGet, h1, Option.some_bind]
      rw [getA_updAssoc_ne _ _ _ _ _ hex]
      cases hg : getA t a with
      | none => simp [getA]
      | some inner => simp
  · rw [if_neg (fun hc => hak hc.1)]
    simp only [aeGet]
    rw [getA_updAssoc_ne _ _ _ _ _ hak]

theorem aeFold_getA (r : List (List Char × Nat)) (x a e : List Char) :
    ∀ t, aeGet (r.foldl (fun t en =>
        updAssoc t en.1 (fun inner => updAssoc inner x (fun n => n + en.2) 0) []) t) a e =
      if a ∈ r.map (fun en => en.1) ∧ e = x then some ((aeGet t a e).getD 0 + recSum a r)
      else aeGet t a e := by
  induction r with
  | nil => intro t; simp
  | cons en rest ih =>
      intro t
      obtain ⟨k, v⟩ := en
      rw [List.foldl_cons, ih, recSum_cons, aeBump_getA]
      by_cases hex : e = x
      · subst hex
        simp only [and_true, eq_self_iff_true]
        by_cases hak : a = k
        · subst hak
          simp only [eq_self_iff_true, if_true]
          by_cases hmem : a ∈ rest.map (fun en => en.1)
          · simp only [hmem, if_true, List.map_cons, List.mem_cons, or_true,
              Option.getD_some, Option.some.injEq]
            omega
          · simp only [hmem, if_false, List.map_cons, List.mem_cons, or_false,
              eq_self_iff_true, if_true, recSum_eq_zero hmem]
            simp
        · have hka : ¬ k = a := fun hc => hak hc.symm
          by_cases hmem : a ∈ rest.map (fun en => en.1)
          · have hor : (a = k ∨ a ∈ rest.map (fun en => en.1)) := Or.inr hmem
            simp [hak, hka, hmem, hor]
          · have hor : ¬ (a = k ∨ a ∈ rest.map (fun en => en.1)) := by
              rintro (hc | hc)
              · exact hak hc
              · exact hmem hc
            simp [hak, hka, hmem, hor]
      · simp [hex]

theorem aeFold_outer (r : List (List Char × Nat)) (x : List Char) :
    ∀ (t : List (List Char × List (List Char × Nat))) (a : List Char),
      getA (r.foldl (fun t en =>
        updAssoc t en.1 (fun inner => updAssoc inner x (fun n => n + en.2) 0) []) t) a = none ↔
      (getA t a = none ∧ a ∉ r.map (fun en => en.1)) := by
  induction r with
  | nil => intro t a; simp
  | cons en rest ih =>
      intro t a
      obtain ⟨k, v⟩ := en
      rw [List.foldl_cons, ih]
      by_cases hak : a = k
      · subst hak
        rw [getA_updAssoc_self]
        simp
      · rw [getA_updAssoc_ne _ _ _ _ _ hak]
        simp [hak]

/-- Number of input files carrying author `a` and having extension `e`. -/
def aeCnt (a e : List Char) (files : List FileIn) : Nat :=
  files.countP (fun f => decide (a ∈ f.2.map (fun en => en.1) ∧ splitextExt f.1 = e))

/-- Lines attributed to author `a` among the files with extension `e`. -/
def aeSum (a e : List Char) (files : List FileIn) : Nat :=
  ((files.filter (fun f => decide (splitextExt f.1 = e))).map (fun f => recSum a f.2)).sum

theorem aeCnt_snoc (a e : List Char) (l : List FileIn) (f : FileIn) :
    aeCnt a e (l ++ [f]) = aeCnt a e l +
      (if a ∈ f.2.map (fun en => en.1) ∧ splitextExt f.1 = e then 1 else 0) := by
  by_cases h1 : a ∈ f.2.map (fun en => en.1) <;> by_cases h2 : splitextExt f.1 = e <;>
    simp [aeCnt, List.countP_append, List.countP_cons, h1, h2]

theorem aeSum_snoc (a e : List Char) (l : List FileIn) (f : FileIn) :
    aeSum a e (l ++ [f]) = aeSum a e l +
      (if splitextExt f.1 = e then recSum a f.2 else 0) := by
  by_cases h : splitextExt f.1 = e <;>
    simp [aeSum, List.filter_append, List.filter_cons, h]

theorem aeSum_zero {a e : List Char} {l : List FileIn} (h : aeCnt a e l = 0) :
    aeSum a e l = 0 := by
  apply List.sum_eq_zero
  intro n hn
  obtain ⟨f, hf, hfx⟩ := List.mem_map.mp hn
  have hfe := List.of_mem_filter hf
  simp only [decide_eq_true_eq] at hfe
  have := List.countP_eq_zero.mp h f (List.mem_of_mem_filter hf)
  simp only [decide_eq_true_eq, not_and] at this
  have hmem : a ∉ f.2.map (fun en => en.1) := fun hc => (this hc) hfe
  rw [← hfx, recSum_eq_zero hmem]

theorem ae_char (files : List FileIn) (a e : List Char) :
    aeGet (runStats files).author_ext_stats a e =
      if aeCnt a e files = 0 then none else some (aeSum a e files) := by
  induction files using List.reverseRecOn with
  | nil => simp [runStats, aeGet, getA, aeCnt, aeSum]
  | append_singleton l f ih =>
      rw [runStats_snoc, processFile_ae, aeFold_getA, ih, aeCnt_snoc, aeSum_snoc]
      by_cases hc : a ∈ f.2.map (fun en => en.1) ∧ e = splitextExt f.1
      · have hc' : a ∈ f.2.map (fun en => en.1) ∧ splitextExt f.1 = e := ⟨hc.1, hc.2.symm⟩
        rw [if_pos hc, if_pos hc', if_pos hc.2.symm]
        by_cases hcnt : aeCnt a e l = 0
        · rw [if_pos hcnt, if_neg (by omega), aeSum_zero hcnt]
          simp
        · rw [if_neg hcnt, if_neg (by omega)]
          simp
      · rw [if_neg hc]
        have h0 : (if a ∈ f.2.map (fun en => en.1) ∧ splitextExt f.1 = e then 1 else 0) = 0 := by
          rw [if_neg (fun hcc => hc ⟨hcc.1, hcc.2.symm⟩)]
        rw [h0, Nat.add_zero]
        by_cases hx : splitextExt f.1 = e
        · have hmem : a ∉ f.2.map (fun en => en.1) := fun hcc => hc ⟨hcc, hx.symm⟩
          rw [if_pos hx, recSum_eq_zero hmem, Nat.add_zero]
        · rw [if_neg hx, Nat.add_zero]

theorem ae_outer_char (files : List FileIn) (a : List Char) :
    getA (runStats files).author_ext_stats a = none ↔ authCnt a files = 0 := by
  induction files using List.reverseRecOn with
  | nil => simp [runStats, getA, authCnt]
  | append_singleton l f ih =>
      rw [runStats_snoc, processFile_ae, aeFold_outer, ih, authCnt_snoc]
      by_cases hmem : a ∈ f.2.map (fun en => en.1)
      · simp [hmem]
      · simp [hmem]

/-! ### Cross-table sums -/

theorem total_char (files : List FileIn) :
    (runStats files).total_lines = (files.map (fun f => fileLines f.2)).sum := by
  induction files using List.reverseRecOn with
  | nil => rfl
  | append_singleton l f ih =>
      rw [runStats_snoc, processFile_total, ih]
      simp

theorem fileLines_updAssoc_add (m : List (List Char × Nat)) (k : List Char) (v : Nat) :
    fileLines (updAssoc m k (fun n => n + v) 0) = fileLines m + v :=
  sumProj_updAssoc (fun n => n) m k _ 0 v (fun _ => rfl) (Nat.zero_add v)

theorem authFold_sum (r : List (List Char × Nat)) :
    ∀ t, fileLines (r.foldl (fun t e => updAssoc t e.1 (fun n => n + e.2) 0) t) =
      fileLines t + fileLines r := by
  induction r with
  | nil => intro t; simp [fileLines]
  | cons en rest ih =>
      intro t
      obtain ⟨k, v⟩ := en
      rw [List.foldl_cons, ih, fileLines_updAssoc_add]
      simp only [fileLines, List.map_cons, List.sum_cons]
      omega

theorem sum_author_eq_total (files : List FileIn) :
    fileLines (runStats files).author_stats = (runStats files).total_lines := by
  induction files using List.reverseRecOn with
  | nil => rfl
  | append_singleton l f ih =>
      rw [runStats_snoc, processFile_author, processFile_total, authFold_sum, ih]

theorem sum_ext_eq_total (files : List FileIn) :
    sumProj (fun es => es.lines) (runStats files).extension_stats = (runStats files).total_lines := by
  induction files using List.reverseRecOn with
  | nil => rfl
  | append_singleton l f ih =>
      rw [runStats_snoc, processFile_ext, processFile_total,
        sumProj_updAssoc (fun es => es.lines) (runStats l).extension_stats (splitextExt f.1)
          (fun es => ⟨es.files + 1, es.lines + fileLines f.2⟩) ⟨0, 0⟩ (fileLines f.2)
          (fun _ => rfl) (Nat.zero_add _), ih]

theorem margA_fold (r : List (List Char × Nat)) (x : List Char) :
    ∀ (t1 : List (List Char × Nat)) (t2 : List (List Char × List (List Char × Nat))),
      (∀ a, (getA t2 a).map fileLines = getA t1 a) →
      ∀ a, (getA (r.foldl (fun t en =>
          updAssoc t en.1 (fun inner => updAssoc inner x (fun n => n + en.2) 0) []) t2) a).map
            fileLines =
        getA (r.foldl (fun t en => updAssoc t en.1 (fun n => n + en.2) 0) t1) a := by
  induction r with
  | nil => intro t1 t2 h a; exact h a
  | cons en rest ih =>
      intro t1 t2 h a
      obtain ⟨k, v⟩ := en
      rw [List.foldl_cons, List.foldl_cons]
      apply ih
      intro b
      by_cases hk : b = k
      · subst hk
        rw [getA_updAssoc_self, getA_updAssoc_self]
        simp only [Option.map_some', Option.some.injEq]
        rw [fileLines_updAssoc_add]
        have hb := h b
        cases hg : getA t2 b with
        | none =>
            rw [hg] at hb
            simp only [Option.map_none'] at hb
            rw [← hb]
            simp [fileLines]
        | some inner =>
            rw [hg] at hb
            simp only [Option.map_some'] at hb
            rw [← hb]
            simp
      · rw [getA_updAssoc_ne _ _ _ _ _ hk, getA_updAssoc_ne _ _ _ _ _ hk]
        exact h b

theorem margA (files : List FileIn) :
    ∀ a, (getA (runStats files).author_ext_stats a).map fileLines =
      getA (runStats files).author_stats a := by
  induction files using List.reverseRecOn with
  | nil => intro a; rfl
  | append_singleton l f ih =>
      intro a
      rw [runStats_snoc, processFile_ae, processFile_author]
      exact margA_fold f.2 (splitextExt f.1) _ _ ih a

theorem margB_bump (t2 : List (List Char × List (List Char × Nat))) (k : List Char) (v : Nat)
    (x e : List Char) :
    sumProj (fun inner => (getA inner e).getD 0)
        (updAssoc t2 k (fun inner => updAssoc inner x (fun n => n + v) 0) []) =
      sumProj (fun inner => (getA inner e).getD 0) t2 + (if x = e then v else 0) := by
  apply sumProj_updAssoc
  · intro inner
    by_cases hxe : x = e
    · subst hxe
      rw [getA_updAssoc_self]
      simp
    · rw [getA_updAssoc_ne _ _ _ _ _ (fun hc => hxe hc.symm), if_neg hxe]
      exact (Nat.add_zero _).symm
  · by_cases hxe : x = e
    · subst hxe
      rw [getA_updAssoc_self]
      simp [getA]
    · rw [getA_updAssoc_ne _ _ _ _ _ (fun hc => hxe hc.symm), if_neg hxe]
      rfl

theorem margB_fold (r : List (List Char × Nat)) (x e : List Char) :
    ∀ t2, sumProj (fun inner => (getA inner e).getD 0)
        (r.foldl (fun t en =>
          updAssoc t en.1 (fun inner => updAssoc inner x (fun n => n + en.2) 0) []) t2) =
      sumProj (fun inner => (getA inner e).getD 0) t2 + (if x = e then fileLines r else 0) := by
  induction r with
  | nil =>
      intro t2
      by_cases hxe : x = e <;> simp [fileLines, hxe]
  | cons en rest ih =>
      intro t2
      obtain ⟨k, v⟩ := en
      rw [List.foldl_cons, ih, margB_bump]
      have hf : fileLines ((k, v) :: rest) = v + fileLines rest := by
        simp [fileLines]
      rw [hf]
      by_cases hxe : x = e
      · simp only [hxe, if_true, eq_self_iff_true]
        omega
      · simp [hxe]

theorem margB (files : List FileIn) :
    ∀ e, sumProj (fun inner => (getA inner e).getD 0) (runStats files).author_ext_stats =
      ((getA (runStats files).extension_stats e).map (fun es => es.lines)).getD 0 := by
  induction files using List.reverseRecOn with
  | nil => intro e; rfl
  | append_singleton l f ih =>
      intro e
      rw [runStats_snoc, processFile_ae, processFile_ext, margB_fold, ih]
      by_cases hx : splitextExt f.1 = e
      · rw [← hx, getA_updAssoc_self, if_pos rfl]
        cases hg : getA (runStats l).extension_stats (splitextExt f.1) with
        | none => simp
        | some es => simp
      · rw [getA_updAssoc_ne _ _ _ _ _ (fun hc => hx hc.symm), if_neg hx]
        simp

/-! ### Directory-tree lemmas -/

theorem insertFile_files (t : DirNode) (ds : List (List Char)) (L : Nat) :
    (insertFile t ds L).files = t.files := by
  cases ds with
  | nil => rfl
  | cons d ds' => rfl

theorem insertFile_lines (t : DirNode) (ds : List (List Char)) (L : Nat) :
    (insertFile t ds L).lines = t.lines := by
  cases ds with
  | nil => rfl
  | cons d ds' => rfl

theorem build_snoc (files : List FileIn) (f : FileIn) :
    build_directory_tree (files ++ [f]) =
      insertFile (build_directory_tree files) (dirOf f.1) (fileLines f.2) := by
  simp [build_directory_tree, List.foldl_append]

theorem build_root_lines (files : List FileIn) : (build_directory_tree files).lines = 0 := by
  induction files using List.reverseRecOn with
  | nil => rfl
  | append_singleton l f ih => rw [build_snoc, insertFile_lines, ih]

theorem build_root_files (files : List FileIn) : (build_directory_tree files).files = 0 := by
  induction files using List.reverseRecOn with
  | nil => rfl
  | append_singleton l f ih => rw [build_snoc, insertFile_files, ih]

theorem pathPre_nil (d : List (List Char)) : PathPre [] d := by
  simp [PathPre]

theorem pathPre_cons {q : List Char} {qs d2 : List (List Char)} {seg : List Char} :
    PathPre (q :: qs) (seg :: d2) ↔ seg = q ∧ PathPre qs d2 := by
  simp only [PathPre, List.length_cons, List.take_succ_cons, List.cons.injEq]

theorem pathPre_cons_nil {q : List Char} {qs : List (List Char)} :
    ¬ PathPre (q :: qs) [] := by
  simp [PathPre]

theorem pathPre_self (p : List (List Char)) : PathPre p p := by
  simp [PathPre]

theorem nodeAt_cons (t : DirNode) (q : List Char) (qs : List (List Char)) :
    nodeAt t (q :: qs) =
      match getA t.subdirs q with
      | none => none
      | some c => nodeAt c qs := rfl

theorem nodeAt_fields_irrel (a b a' b' : Nat) (s : List (List Char × DirNode))
    (q : List Char) (qs : List (List Char)) :
    nodeAt (DirNode.mk a b s) (q :: qs) = nodeAt (DirNode.mk a' b' s) (q :: qs) := rfl

/-- The child a file insertion steps into, after its counters are bumped
and the remaining segments are inserted. -/
def insChild (t : DirNode) (d : List Char) (ds : List (List Char)) (L : Nat) : DirNode :=
  insertFile
    (DirNode.mk (((getA t.subdirs d).getD (DirNode.mk 0 0 [])).files + 1)
      (((getA t.subdirs d).getD (DirNode.mk 0 0 [])).lines + L)
      ((getA t.subdirs d).getD (DirNode.mk 0 0 [])).subdirs) ds L

theorem insertFile_cons (t : DirNode) (d : List Char) (ds : List (List Char)) (L : Nat) :
    insertFile t (d :: ds) L =
      DirNode.mk t.files t.lines
        (updAssoc t.subdirs d (fun _ => insChild t d ds L) (insChild t d ds L)) := rfl

theorem subdirs_mk (a b : Nat) (s : List (List Char × DirNode)) :
    (DirNode.mk a b s).subdirs = s := rfl

theorem files_mk (a b : Nat) (s : List (List Char × DirNode)) :
    (DirNode.mk a b s).files = a := rfl

theorem lines_mk (a b : Nat) (s : List (List Char × DirNode)) :
    (DirNode.mk a b s).lines = b := rfl

/-- A path that does not lead into the inserted file's directory chain is
completely untouched by `insertFile`. -/
theorem insertFile_nodeAt_out (ds : List (List Char)) (L : Nat) :
    ∀ (t : DirNode) (p : List (List Char)), ¬ PathPre p ds → p ≠ [] →
      nodeAt (insertFile t ds L) p = nodeAt t p := by
  induction ds with
  | nil => intro t p _ _; rfl
  | cons d ds' ih =>
      intro t p hpre hne
      cases p with
      | nil => exact absurd rfl hne
      | cons q qs =>
          rw [insertFile_cons, nodeAt_cons, subdirs_mk]
          by_cases hq : q = d
          · subst hq
            have hpre' : ¬ PathPre qs ds' := fun hc => hpre (pathPre_cons.mpr ⟨rfl, hc⟩)
            cases qs with
            | nil => exact absurd (pathPre_cons.mpr ⟨rfl, pathPre_nil ds'⟩) hpre
            | cons q' qs' =>
                rw [getA_updAssoc_self]
                simp only [insChild]
                rw [ih _ _ hpre' (by simp), nodeAt_cons]
                cases hg : getA t.subdirs q with
                | none => simp [nodeAt_cons, hg, getA]
                | some c => simp [nodeAt_cons, hg, subdirs_mk]
          · rw [getA_updAssoc_ne _ _ _ _ _ hq, nodeAt_cons]

theorem nodeAt_insert_cons_self (t : DirNode) (d : List Char) (ds' : List (List Char)) (L : Nat)
    (qs : List (List Char)) :
    nodeAt (insertFile t (d :: ds') L) (d :: qs) = nodeAt (insChild t d ds' L) qs := by
  rw [insertFile_cons, nodeAt_cons, subdirs_mk, getA_updAssoc_self]

theorem statsAt_mk_cons (a b : Nat) (s : List (List Char × DirNode)) (c : DirNode)
    (q : List Char) (qs : List (List Char)) (h : s = c.subdirs) :
    statsAt (DirNode.mk a b s) (q :: qs) = statsAt c (q :: qs) := by
  subst h
  rfl

/-- A generalised value-sum step for `updAssoc`: the projected sum grows by
whatever the update adds to the affected entry. -/
theorem sumProj_updAssoc_gen {κ β : Type} [DecidableEq κ] (g : β → Nat) (m : List (κ × β))
    (k : κ) (f : β → β) (d : β) (δ : Nat)
    (h : g (f ((getA m k).getD d)) = ((getA m k).map g).getD 0 + δ) :
    sumProj g (updAssoc m k f d) = sumProj g m + δ := by
  induction m with
  | nil =>
      simp only [getA, Option.getD_none, Option.map_none', Nat.zero_add] at h
      simp [updAssoc, sumProj, h]
  | cons e rest ih =>
      obtain ⟨k', v⟩ := e
      by_cases hk : k' = k
      · subst hk
        rw [show getA ((k', v) :: rest) k' = some v from by simp [getA]] at h
        simp only [Option.getD_some, Option.map_some'] at h
        rw [show updAssoc ((k', v) :: rest) k' f d = (k', f v) :: rest from by simp [updAssoc]]
        simp only [sumProj, List.map_cons, List.sum_cons]
        omega
      · rw [show getA ((k', v) :: rest) k = getA rest k from by simp [getA, hk]] at h
        rw [show updAssoc ((k', v) :: rest) k f d = (k', v) :: updAssoc rest k f d from by
          simp [updAssoc, hk]]
        simp only [sumProj, List.map_cons, List.sum_cons]
        have := ih h
        simp only [sumProj] at this
        omega

theorem subSum_mk (a b : Nat) (s : List (List Char × DirNode)) :
    subSum (DirNode.mk a b s) = (s.map (fun e => e.2.lines)).sum := rfl

/-- Inserting a file with at least one directory segment adds `L` to the sum
of the direct children's line counters. -/
theorem insertFile_subSum_root (t : DirNode) (ds : List (List Char)) (L : Nat) (h : ds ≠ []) :
    subSum (insertFile t ds L) = subSum t + L := by
  cases ds with
  | nil => exact absurd rfl h
  | cons d ds' =>
      rw [insertFile_cons]
      rw [subSum_mk]
      have step : sumProj (fun nd => nd.lines)
          (updAssoc t.subdirs d (fun _ => insChild t d ds' L) (insChild t d ds' L)) =
          sumProj (fun nd => nd.lines) t.subdirs + L := by
        apply sumProj_updAssoc_gen
        cases hg : getA t.subdirs d with
        | none =>
            simp only [Option.getD_none, Option.map_none', Nat.zero_add]
            rw [insChild]
            rw [insertFile_lines]
            simp [hg, lines_mk]
        | some c =>
            simp only [Option.getD_some, Option.map_some']
            rw [insChild]
            rw [insertFile_lines]
            simp [hg, lines_mk]
      exact step

theorem insertFile_statsAt_in (ds : List (List Char)) (L : Nat) :
    ∀ (t : DirNode) (p : List (List Char)), PathPre p ds → p ≠ [] →
      statsAt (insertFile t ds L) p =
        some (((statsAt t p).getD (0, 0)).1 + 1, ((statsAt t p).getD (0, 0)).2 + L) := by
  induction ds with
  | nil =>
      intro t p hpre hne
      exact absurd (by simpa [PathPre] using hpre) hne
  | cons d ds' ih =>
      intro t p hpre hne
      cases p with
      | nil => exact absurd rfl hne
      | cons q qs =>
          obtain ⟨hd, hpre'⟩ := pathPre_cons.mp hpre
          subst hd
          rw [statsAt, nodeAt_insert_cons_self]
          cases qs with
          | nil =>
              cases hg : getA t.subdirs d with
              | none =>
                  simp [statsAt, nodeAt, nodeAt_cons, insChild, hg, insertFile_files,
                    insertFile_lines, files_mk, lines_mk]
              | some c =>
                  simp [statsAt, nodeAt, nodeAt_cons, insChild, hg, insertFile_files,
                    insertFile_lines, files_mk, lines_mk]
          | cons q' qs' =>
              have hqs : (q' :: qs' : List (List Char)) ≠ [] := by simp
              simp only [insChild]
              have h2 := ih (DirNode.mk (((getA t.subdirs d).getD (DirNode.mk 0 0 [])).files + 1)
                (((getA t.subdirs d).getD (DirNode.mk 0 0 [])).lines + L)
                ((getA t.subdirs d).getD (DirNode.mk 0 0 [])).subdirs) (q' :: qs') hpre' hqs
              rw [statsAt] at h2
              rw [h2]
              cases hg : getA t.subdirs d with
              | none =>
                  have e1 : statsAt (DirNode.mk (((Option.none).getD (DirNode.mk 0 0 [])).files + 1)
                      (((Option.none).getD (DirNode.mk 0 0 [])).lines + L)
                      ((Option.none).getD (DirNode.mk 0 0 [])).subdirs) (q' :: qs') = none := by
                    simp [statsAt, nodeAt_cons, subdirs_mk, getA]
                  rw [e1]
                  have e2 : statsAt t (d :: q' :: qs') = none := by
                    simp [statsAt, nodeAt_cons, hg]
                  rw [e2]
              | some c =>
                  have e1 : statsAt (DirNode.mk (((some c).getD (DirNode.mk 0 0 [])).files + 1)
                      (((some c).getD (DirNode.mk 0 0 [])).lines + L)
                      ((some c).getD (DirNode.mk 0 0 [])).subdirs) (q' :: qs') =
                      statsAt c (q' :: qs') :=
                    statsAt_mk_cons _ _ _ c q' qs' (by simp [Option.getD_some])
                  rw [e1]
                  have e2 : statsAt t (d :: q' :: qs') = statsAt c (q' :: qs') := by
                    simp [statsAt, nodeAt_cons, hg]
                  rw [e2]

theorem insertFile_nodeAt_exact (ds : List (List Char)) (L : Nat) :
    ∀ t : DirNode, ds ≠ [] →
      ∃ n', nodeAt (insertFile t ds L) ds = some n' ∧
        n'.subdirs = ((nodeAt t ds).map DirNode.subdirs).getD [] := by
  induction ds with
  | nil => intro t h; exact absurd rfl h
  | cons d ds' ih =>
      intro t _
      rw [nodeAt_insert_cons_self]
      simp only [insChild]
      cases ds' with
      | nil =>
          refine ⟨_, rfl, ?_⟩
          cases hg : getA t.subdirs d with
          | none => simp [insertFile, hg, subdirs_mk, nodeAt_cons, nodeAt]
          | some c => simp [insertFile, hg, subdirs_mk, nodeAt_cons, nodeAt]
      | cons d' ds'' =>
          obtain ⟨n', hn', hsub⟩ := ih
            (DirNode.mk (((getA t.subdirs d).getD (DirNode.mk 0 0 [])).files + 1)
              (((getA t.subdirs d).getD (DirNode.mk 0 0 [])).lines + L)
              ((getA t.subdirs d).getD (DirNode.mk 0 0 [])).subdirs) (by simp)
          refine ⟨n', hn', ?_⟩
          rw [hsub]
          cases hg : getA t.subdirs d with
          | none => simp [hg, nodeAt_cons, subdirs_mk, getA]
          | some c => simp [hg, nodeAt_cons, subdirs_mk]

theorem insertFile_subSum_in (ds : List (List Char)) (L : Nat) :
    ∀ (t : DirNode) (p : List (List Char)), PathPre p ds → p ≠ ds → p ≠ [] →
      (nodeAt (insertFile t ds L) p).map subSum =
        some (((nodeAt t p).map subSum).getD 0 + L) := by
  induction ds with
  | nil =>
      intro t p hpre _ hne
      exact absurd (by simpa [PathPre] using hpre) hne
  | cons d ds' ih =>
      intro t p hpre hpd hne
      cases p with
      | nil => exact absurd rfl hne
      | cons q qs =>
          obtain ⟨hd, hpre'⟩ := pathPre_cons.mp hpre
          subst hd
          rw [nodeAt_insert_cons_self]
          simp only [insChild]
          cases qs with
          | nil =>
              have hds' : ds' ≠ [] := by
                intro hc
                subst hc
                exact hpd rfl
              simp only [nodeAt, Option.map_some']
              rw [insertFile_subSum_root _ _ _ hds']
              cases hg : getA t.subdirs d with
              | none => simp [hg, subSum_mk, nodeAt_cons, subSum, subdirs_mk, nodeAt]
              | some c => simp [hg, subSum_mk, nodeAt_cons, subSum, subdirs_mk, nodeAt]
          | cons q' qs' =>
              have hqd : (q' :: qs' : List (List Char)) ≠ ds' := by
                intro hc
                exact hpd (by rw [hc])
              have h2 := ih (DirNode.mk (((getA t.subdirs d).getD (DirNode.mk 0 0 [])).files + 1)
                (((getA t.subdirs d).getD (DirNode.mk 0 0 [])).lines + L)
                ((getA t.subdirs d).getD (DirNode.mk 0 0 [])).subdirs) (q' :: qs') hpre' hqd
                (by simp)
              rw [h2]
              cases hg : getA t.subdirs d with
              | none => simp [hg, nodeAt_cons, subdirs_mk, getA]
              | some c => simp [hg, nodeAt_cons, subdirs_mk]

/-- Number of input files whose directory chain passes through `p`. -/
def treeCnt (p : List (List Char)) (files : List FileIn) : Nat :=
  files.countP (fun f => decide (PathPre p (dirOf f.1)))

/-- Total lines of the input files whose directory chain passes through `p`. -/
def treeSum (p : List (List Char)) (files : List FileIn) : Nat :=
  ((files.filter (fun f => decide (PathPre p (dirOf f.1)))).map (fun f => fileLines f.2)).sum

theorem treeCnt_snoc (p : List (List Char)) (l : List FileIn) (f : FileIn) :
    treeCnt p (l ++ [f]) = treeCnt p l + (if PathPre p (dirOf f.1) then 1 else 0) := by
  by_cases h : PathPre p (dirOf f.1) <;>
    simp [treeCnt, List.countP_append, List.countP_cons, h]

theorem treeSum_snoc (p : List (List Char)) (l : List FileIn) (f : FileIn) :
    treeSum p (l ++ [f]) = treeSum p l + (if PathPre p (dirOf f.1) then fileLines f.2 else 0) := by
  by_cases h : PathPre p (dirOf f.1) <;>
    simp [treeSum, List.filter_append, List.filter_cons, h]

theorem treeSum_zero {p : List (List Char)} {l : List FileIn} (h : treeCnt p l = 0) :
    treeSum p l = 0 := by
  have : l.filter (fun f => decide (PathPre p (dirOf f.1))) = [] := by
    apply List.filter_eq_nil_iff.mpr
    intro f hf
    exact List.countP_eq_zero.mp h f hf
  simp [treeSum, this]

/-- Characterisation of every non-root tree node's counters in terms of the
input file list: the node at `p` exists exactly when some file's directory
chain passes through `p`, its `files` counter is the number of such files
and its `lines` counter the sum of their line counts. -/
theorem statsAt_build (files : List FileIn) (p : List (List Char)) (hp : p ≠ []) :
    statsAt (build_directory_tree files) p =
      if treeCnt p files = 0 then none else some (treeCnt p files, treeSum p files) := by
  induction files using List.reverseRecOn with
  | nil =>
      cases p with
      | nil => exact absurd rfl hp
      | cons q qs => simp [build_directory_tree, statsAt, nodeAt_cons, subdirs_mk, getA,
          treeCnt, treeSum]
  | append_singleton l f ih =>
      rw [build_snoc, treeCnt_snoc, treeSum_snoc]
      by_cases hpre : PathPre p (dirOf f.1)
      · rw [insertFile_statsAt_in _ _ _ _ hpre hp, ih, if_pos hpre, if_pos hpre]
        by_cases hcnt : treeCnt p l = 0
        · rw [if_pos hcnt, hcnt, treeSum_zero hcnt, if_neg (by omega)]
          simp
        · rw [if_neg hcnt, if_neg (by omega)]
          simp
      · rw [statsAt, insertFile_nodeAt_out _ _ _ _ hpre hp, if_neg hpre, if_neg hpre]
        rw [← statsAt, ih]
        simp

theorem directSum_snoc (p : List (List Char)) (l : List FileIn) (f : FileIn) :
    directSum (l ++ [f]) p = directSum l p + (if dirOf f.1 = p then fileLines f.2 else 0) := by
  by_cases h : dirOf f.1 = p <;>
    simp [directSum, List.filter_append, List.filter_cons, h]

theorem directSum_zero_of_absent {files : List FileIn} {p : List (List Char)} (hp : p ≠ [])
    (h : nodeAt (build_directory_tree files) p = none) : directSum files p = 0 := by
  have hstats : statsAt (build_directory_tree files) p = none := by
    rw [statsAt, h]
    rfl
  rw [statsAt_build files p hp] at hstats
  by_cases hcnt : treeCnt p files = 0
  · have hfilter : files.filter (fun f => decide (dirOf f.1 = p)) = [] := by
      apply List.filter_eq_nil_iff.mpr
      intro f hf
      simp only [decide_eq_true_eq]
      intro hc
      have := List.countP_eq_zero.mp hcnt f hf
      simp only [decide_eq_true_eq] at this
      exact this (hc ▸ pathPre_self p)
    simp [directSum, hfilter]
  · rw [if_neg hcnt] at hstats
    exact absurd hstats (by simp)

theorem subSum_eq_of_subdirs {n m : DirNode} (h : n.subdirs = m.subdirs) :
    subSum n = subSum m := by
  rw [subSum, subSum, h]

/-- The rollup invariant for every non-root node of the built tree: its
`lines` counter equals the sum of its children's `lines` counters plus the
lines of the files lying directly in that directory. -/
theorem rollup_build (files : List FileIn) :
    ∀ (p : List (List Char)) (n : DirNode), p ≠ [] →
      nodeAt (build_directory_tree files) p = some n →
      n.lines = subSum n + directSum files p := by
  induction files using List.reverseRecOn with
  | nil =>
      intro p n hp hn
      cases p with
      | nil => exact absurd rfl hp
      | cons q qs => simp [build_directory_tree, nodeAt_cons, subdirs_mk, getA] at hn
  | append_singleton l f ih =>
      intro p n hp hn
      rw [build_snoc] at hn
      rw [directSum_snoc]
      by_cases hpre : PathPre p (dirOf f.1)
      · have hstats := insertFile_statsAt_in (dirOf f.1) (fileLines f.2) (build_directory_tree l)
          p hpre hp
        rw [statsAt, hn, Option.map_some'] at hstats
        have hlines : n.lines = ((statsAt (build_directory_tree l) p).getD (0, 0)).2 +
            fileLines f.2 := by
          have := congrArg (fun o => (o.getD (0, 0)).2) hstats
          simpa using this
        by_cases hpd : p = dirOf f.1
        · subst hpd
          obtain ⟨n', hn', hsub⟩ := insertFile_nodeAt_exact (dirOf f.1) (fileLines f.2)
            (build_directory_tree l) hp
          rw [hn] at hn'
          have hnn : n = n' := by
            injection hn'
          subst hnn
          rw [if_pos rfl]
          cases hg : nodeAt (build_directory_tree l) (dirOf f.1) with
          | none =>
              have hd0 : directSum l (dirOf f.1) = 0 := directSum_zero_of_absent hp hg
              have hsub0 : subSum n = 0 := by
                rw [subSum, hsub, hg]
                rfl
              rw [hlines, hsub0, hd0]
              rw [statsAt, hg]
              simp
          | some m =>
              have hm := ih (dirOf f.1) m hp hg
              have hsubeq : subSum n = subSum m := by
                apply subSum_eq_of_subdirs
                rw [hsub, hg]
                rfl
              rw [hlines, hsubeq, statsAt, hg]
              simp only [Option.map_some', Option.getD_some]
              omega
        · rw [if_neg (fun hc => hpd hc.symm)]
          have hsubin := insertFile_subSum_in (dirOf f.1) (fileLines f.2)
            (build_directory_tree l) p hpre hpd hp
          rw [hn, Option.map_some'] at hsubin
          have hsubn : subSum n = ((nodeAt (build_directory_tree l) p).map subSum).getD 0 +
              fileLines f.2 := by
            injection hsubin
          cases hg : nodeAt (build_directory_tree l) p with
          | none =>
              have hd0 : directSum l p = 0 := directSum_zero_of_absent hp hg
              rw [hlines, hsubn, hg, hd0, statsAt, hg]
              simp
          | some m =>
              have hm := ih p m hp hg
              rw [hlines, hsubn, hg, statsAt, hg]
              simp only [Option.map_some', Option.getD_some]
              omega
      · rw [insertFile_nodeAt_out _ _ _ _ hpre hp] at hn
        have hdir : ¬ dirOf f.1 = p := fun hc => hpre (hc ▸ pathPre_self p)
        rw [if_neg hdir]
        simpa using ih p n hp hn

theorem treeNodup_iff (t : DirNode) :
    treeNodup t = true ↔
      ((t.subdirs.map (fun e => e.1)).Nodup ∧ ∀ e ∈ t.subdirs, treeNodup e.2 = true) := by
  rw [treeNodup]
  constructor
  · intro h
    obtain ⟨h1, h2⟩ := Bool.and_eq_true_iff.mp h
    refine ⟨by simpa using h1, ?_⟩
    intro e he
    exact List.all_eq_true.mp h2 ⟨e, he⟩ (List.mem_attach _ _)
  · rintro ⟨h1, h2⟩
    apply Bool.and_eq_true_iff.mpr
    refine ⟨by simpa using h1, List.all_eq_true.mpr ?_⟩
    rintro ⟨e, he⟩ _
    exact h2 e he

theorem treeNodup_insertFile (ds : List (List Char)) (L : Nat) :
    ∀ t : DirNode, treeNodup t = true → treeNodup (insertFile t ds L) = true := by
  induction ds with
  | nil => intro t h; exact h
  | cons d ds' ih =>
      intro t h
      obtain ⟨h1, h2⟩ := (treeNodup_iff t).mp h
      rw [insertFile_cons]
      apply (treeNodup_iff _).mpr
      rw [subdirs_mk]
      constructor
      · exact nodup_keys_updAssoc _ _ _ _ h1
      · intro e he
        rcases mem_updAssoc he with hmem | heq
        · exact h2 e hmem
        · rw [heq]
          simp only [insChild]
          apply ih
          cases hg : getA t.subdirs d with
          | none =>
              apply (treeNodup_iff _).mpr
              simp [subdirs_mk]
          | some c =>
              obtain ⟨hc1, hc2⟩ := (treeNodup_iff c).mp (h2 (d, c) (getA_mem hg))
              apply (treeNodup_iff _).mpr
              simp only [Option.getD_some, subdirs_mk]
              exact ⟨hc1, hc2⟩

theorem build_treeNodup (files : List FileIn) :
    treeNodup (build_directory_tree files) = true := by
  have hinit : treeNodup (DirNode.mk 0 0 []) = true := by
    apply (treeNodup_iff _).mpr
    simp [subdirs_mk]
  have h : ∀ t, treeNodup t = true →
      treeNodup (files.foldl (fun t f => insertFile t (dirOf f.1) (fileLines f.2)) t) = true := by
    induction files with
    | nil => intro t h; exact h
    | cons f fs ih =>
        intro t h
        exact ih _ (treeNodup_insertFile _ _ _ h)
  exact h _ hinit

/-! ### Renderer characterisation -/

/-- Node access within a children list (a "forest"): the first segment picks
the child, the rest navigates inside it. -/
def forestAt (l : List (List Char × DirNode)) : List (List Char) → Option DirNode
  | [] => none
  | q :: qs =>
      match getA l q with
      | none => none
      | some c => nodeAt c qs

/-- Well-formedness of a children list: distinct names and keyed-nodup
subtrees. -/
def FNodup (l : List (List Char × DirNode)) : Prop :=
  (l.map (fun e => e.1)).Nodup ∧ ∀ e ∈ l, treeNodup e.2 = true

theorem pathPre_nil_right {qs : List (List Char)} : PathPre qs [] ↔ qs = [] := by
  simp [PathPre, eq_comm]

theorem getA_cons_self {name : List Char} {d : DirNode} {rest : List (List Char × DirNode)} :
    getA ((name, d) :: rest) name = some d := by
  simp [getA]

theorem getA_cons_ne {name q : List Char} {d : DirNode} {rest : List (List Char × DirNode)}
    (h : q ≠ name) : getA ((name, d) :: rest) q = getA rest q := by
  have h' : name ≠ q := fun hc => h hc.symm
  simp [getA, h']

theorem forestAt_cons_self (name : List Char) (d : DirNode) (rest : List (List Char × DirNode))
    (qs : List (List Char)) :
    forestAt ((name, d) :: rest) (name :: qs) = nodeAt d qs := by
  simp [forestAt, getA_cons_self]

theorem forestAt_cons_ne {name q : List Char} {d : DirNode} {rest : List (List Char × DirNode)}
    (qs : List (List Char)) (h : q ≠ name) :
    forestAt ((name, d) :: rest) (q :: qs) = forestAt rest (q :: qs) := by
  simp only [forestAt, getA_cons_ne h]

theorem nodeAt_eq_forestAt (d : DirNode) (q : List Char) (qs : List (List Char)) :
    nodeAt d (q :: qs) = forestAt d.subdirs (q :: qs) := rfl

theorem forestAt_perm {l1 l2 : List (List Char × DirNode)}
    (hn : (l1.map (fun e => e.1)).Nodup) (hp : l1.Perm l2) (s : List (List Char)) :
    forestAt l1 s = forestAt l2 s := by
  cases s with
  | nil => rfl
  | cons q qs => simp only [forestAt, getA_eq_of_perm hn hp q]

theorem FNodup_of_treeNodup {d : DirNode} (h : treeNodup d = true) : FNodup d.subdirs :=
  (treeNodup_iff d).mp h

theorem FNodup_perm {l1 l2 : List (List Char × DirNode)} (h : FNodup l1) (hp : l1.Perm l2) :
    FNodup l2 :=
  ⟨((hp.map (fun e => e.1)).nodup_iff).mp h.1, fun e he => h.2 e (hp.mem_iff.mpr he)⟩

theorem FNodup_tail {e : List Char × DirNode} {l : List (List Char × DirNode)}
    (h : FNodup (e :: l)) : FNodup l :=
  ⟨(List.nodup_cons.mp h.1).2, fun x hx => h.2 x (List.mem_cons_of_mem _ hx)⟩

theorem append_singleton_cons (b : List (List Char)) (x : List Char) (s : List (List Char)) :
    (b ++ [x]) ++ s = b ++ x :: s := by
  simp

/-- The printing-eligibility condition of a path within a forest: every
nonempty leading segment sequence reaches a node whose share of `total`
exceeds 1%.  The denominator is the single `total` parameter — the
root-level grand total — at every depth. -/
def forestChain (total : Nat) (l : List (List Char × DirNode)) (s : List (List Char)) : Prop :=
  ∀ q qs, PathPre (q :: qs) s →
    ∃ m, forestAt l (q :: qs) = some m ∧ (m.lines : ℚ) / (total : ℚ) > 1 / 100

/-- What it means for an output entry to be printed under `base` from the
forest `l`: its path extends `base` by a nonempty segment sequence `s`, its
numbers are the counters and formatted percentage of the node at `s`, and
every ancestor along `s` (including the node itself) clears the 1%
threshold computed against the fixed `total`. -/
def printedSpec (total : Nat) (l : List (List Char × DirNode)) (base : List (List Char))
    (pd : PrintedDir) : Prop :=
  ∃ s n, pd.path = base ++ s ∧ s ≠ [] ∧ forestAt l s = some n ∧
    pd.plines = n.lines ∧ pd.pfiles = n.files ∧
    pd.pct = format_percentage n.lines total ∧ forestChain total l s

theorem printKids_char (N : Nat) :
    ∀ (l : List (List Char × DirNode)), sizeOf l < N →
    ∀ (total : Nat) (base : List (List Char)), total ≠ 0 → FNodup l →
    ∃ out, printKids total base l = Except.ok out ∧
      ∀ pd : PrintedDir, pd ∈ out ↔ printedSpec total l base pd := by
  induction N with
  | zero =>
      intro l hl
      omega
  | succ N ih =>
      intro l hl total base htot hnod
      cases l with
      | nil =>
          refine ⟨[], by rw [printKids], ?_⟩
          intro pd
          simp only [List.not_mem_nil, false_iff]
          rintro ⟨s, n, _, hs, hf, _⟩
          cases s with
          | nil => exact hs rfl
          | cons q qs => simp [forestAt, getA] at hf
      | cons e rest =>
          obtain ⟨name, d⟩ := e
          have hszd : sizeOf (pySortedBy (fun e => e.2.lines) d.subdirs) < N := by
            rw [sizeOf_pySortedBy]
            have h1 := sizeOf_subdirs_lt d
            have h2 : sizeOf d < sizeOf ((name, d) :: rest) := by
              simp only [List.cons.sizeOf_spec, Prod.mk.sizeOf_spec]
              omega
            omega
          have hszr : sizeOf rest < N := by
            have h2 : sizeOf rest < sizeOf ((name, d) :: rest) := by
              simp only [List.cons.sizeOf_spec]
              omega
            omega
          have htreeN : treeNodup d = true := hnod.2 (name, d) (List.mem_cons_self _ _)
          have hnodsub : FNodup (pySortedBy (fun e => e.2.lines) d.subdirs) :=
            FNodup_perm (FNodup_of_treeNodup htreeN) (pySortedBy_perm _ _).symm
          have hnodrest : FNodup rest := FNodup_tail hnod
          have hnamekeys : name ∉ rest.map (fun e => e.1) := by
            have h0 := hnod.1
            simp only [List.map_cons] at h0
            exact (List.nodup_cons.mp h0).1
          have hsubperm := pySortedBy_perm (fun e : List Char × DirNode => e.2.lines) d.subdirs
          have hsubkeys : (d.subdirs.map (fun e => e.1)).Nodup := (FNodup_of_treeNodup htreeN).1
          have hforest : ∀ (q : List Char) (qs : List (List Char)),
              forestAt (pySortedBy (fun e => e.2.lines) d.subdirs) (q :: qs) =
                nodeAt d (q :: qs) := by
            intro q qs
            rw [nodeAt_eq_forestAt]
            exact (forestAt_perm hsubkeys hsubperm.symm (q :: qs)).symm
          obtain ⟨sub, hsub, hsubmem⟩ := ih _ hszd total (base ++ [name]) htot hnodsub
          obtain ⟨more, hmore, hmoremem⟩ := ih _ hszr total base htot hnodrest
          by_cases hratio : (d.lines : ℚ) / (total : ℚ) > 1 / 100
          · refine ⟨⟨base ++ [name], d.lines, d.files, format_percentage d.lines total⟩ ::
              (sub ++ more), ?_, ?_⟩
            · rw [printKids, if_neg htot, if_pos hratio, hsub, hmore]
            · intro pd
              rw [List.mem_cons, List.mem_append, hsubmem, hmoremem]
              constructor
              · rintro (hpd | hspec | hspec)
                · subst hpd
                  refine ⟨[name], d, rfl, by simp, ?_, rfl, rfl, rfl, ?_⟩
                  · rw [forestAt_cons_self]
                    rfl
                  · intro q qs hpp
                    obtain ⟨hq, hqs⟩ := pathPre_cons.mp hpp
                    subst hq
                    rw [pathPre_nil_right] at hqs
                    subst hqs
                    refine ⟨d, ?_, hratio⟩
                    rw [forestAt_cons_self]
                    rfl
                · obtain ⟨s', n, hpath, hs', hf', hl', hfi', hpct', hchain'⟩ := hspec
                  refine ⟨name :: s', n, ?_, by simp, ?_, hl', hfi', hpct', ?_⟩
                  · rw [hpath, append_singleton_cons]
                  · cases s' with
                    | nil => exact absurd rfl hs'
                    | cons q2 qs2 =>
                        rw [forestAt_cons_self, ← hforest q2 qs2]
                        exact hf'
                  · intro q qs hpp
                    obtain ⟨hq, hqs⟩ := pathPre_cons.mp hpp
                    subst hq
                    cases qs with
                    | nil =>
                        refine ⟨d, ?_, hratio⟩
                        rw [forestAt_cons_self]
                        rfl
                    | cons q2 qs2 =>
                        obtain ⟨m, hm, hmr⟩ := hchain' q2 qs2 hqs
                        refine ⟨m, ?_, hmr⟩
                        rw [forestAt_cons_self, ← hforest q2 qs2]
                        exact hm
                · obtain ⟨s, n, hpath, hs, hf, hl', hfi', hpct', hchain'⟩ := hspec
                  cases s with
                  | nil => exact absurd rfl hs
                  | cons q qs =>
                      have hqname : q ≠ name := by
                        intro hc
                        subst hc
                        rcases hgf : getA rest q with _ | c
                        · rw [forestAt, hgf] at hf
                          simp at hf
                        · exact hnamekeys (List.mem_map.mpr ⟨(q, c), getA_mem hgf, rfl⟩)
                      refine ⟨q :: qs, n, hpath, hs, ?_, hl', hfi', hpct', ?_⟩
                      · rw [forestAt_cons_ne qs hqname]
                        exact hf
                      · intro q3 qs3 hpp
                        obtain ⟨m, hm, hmr⟩ := hchain' q3 qs3 hpp
                        have hq3 : q = q3 := (pathPre_cons.mp hpp).1
                        have hq3name : q3 ≠ name := by
                          rw [← hq3]
                          exact hqname
                        refine ⟨m, ?_, hmr⟩
                        rw [forestAt_cons_ne qs3 hq3name]
                        exact hm
              · rintro ⟨s, n, hpath, hs, hf, hl', hfi', hpct', hchain⟩
                cases s with
                | nil => exact absurd rfl hs
                | cons q qs =>
                    by_cases hqn : q = name
                    · subst hqn
                      rw [forestAt_cons_self] at hf
                      cases qs with
                      | nil =>
                          left
                          rw [show nodeAt d ([] : List (List Char)) = some d from rfl] at hf
                          injection hf with hdn
                          cases pd with
                          | mk pp pl pf pc =>
                              simp only at hpath hl' hfi' hpct'
                              rw [← hdn] at hl' hfi' hpct'
                              rw [hpath, hl', hfi', hpct']
                      | cons q2 qs2 =>
                          right; left
                          refine ⟨q2 :: qs2, n, ?_, by simp, ?_, hl', hfi', hpct', ?_⟩
                          · rw [hpath, append_singleton_cons]
                          · rw [hforest q2 qs2]
                            exact hf
                          · intro q3 qs3 hpp3
                            have hpp' : PathPre (q :: q3 :: qs3) (q :: q2 :: qs2) :=
                              pathPre_cons.mpr ⟨rfl, hpp3⟩
                            obtain ⟨m, hm, hmr⟩ := hchain q (q3 :: qs3) hpp'
                            rw [forestAt_cons_self] at hm
                            refine ⟨m, ?_, hmr⟩
                            rw [hforest q3 qs3]
                            exact hm
                    · right; right
                      refine ⟨q :: qs, n, hpath, hs, ?_, hl', hfi', hpct', ?_⟩
                      · rw [← forestAt_cons_ne qs hqn]
                        exact hf
                      · intro q3 qs3 hpp3
                        obtain ⟨m, hm, hmr⟩ := hchain q3 qs3 hpp3
                        have hq3 : q = q3 := (pathPre_cons.mp hpp3).1
                        have hq3name : q3 ≠ name := by
                          rw [← hq3]
                          exact hqn
                        refine ⟨m, ?_, hmr⟩
                        rw [← forestAt_cons_ne qs3 hq3name]
                        exact hm
          · refine ⟨more, ?_, ?_⟩
            · rw [printKids, if_neg htot, if_neg hratio]
              exact hmore
            · intro pd
              rw [hmoremem]
              constructor
              · rintro ⟨s, n, hpath, hs, hf, hl', hfi', hpct', hchain'⟩
                cases s with
                | nil => exact absurd rfl hs
                | cons q qs =>
                    have hqname : q ≠ name := by
                      intro hc
                      subst hc
                      rcases hgf : getA rest q with _ | c
                      · rw [forestAt, hgf] at hf
                        simp at hf
                      · exact hnamekeys (List.mem_map.mpr ⟨(q, c), getA_mem hgf, rfl⟩)
                    refine ⟨q :: qs, n, hpath, hs, ?_, hl', hfi', hpct', ?_⟩
                    · rw [forestAt_cons_ne qs hqname]
                      exact hf
                    · intro q3 qs3 hpp
                      obtain ⟨m, hm, hmr⟩ := hchain' q3 qs3 hpp
                      have hq3 : q = q3 := (pathPre_cons.mp hpp).1
                      have hq3name : q3 ≠ name := by
                        rw [← hq3]
                        exact hqname
                      refine ⟨m, ?_, hmr⟩
                      rw [forestAt_cons_ne qs3 hq3name]
                      exact hm
              · rintro ⟨s, n, hpath, hs, hf, hl', hfi', hpct', hchain⟩
                cases s with
                | nil => exact absurd rfl hs
                | cons q qs =>
                    by_cases hqn : q = name
                    · exfalso
                      subst hqn
                      have hpp : PathPre [q] (q :: qs) :=
                        pathPre_cons.mpr ⟨rfl, by rw [PathPre]; rfl⟩
                      obtain ⟨m, hm, hmr⟩ := hchain q [] hpp
                      rw [forestAt_cons_self,
                        show nodeAt d ([] : List (List Char)) = some d from rfl] at hm
                      injection hm with hdm
                      rw [← hdm] at hmr
                      exact hratio hmr
                    · refine ⟨q :: qs, n, hpath, hs, ?_, hl', hfi', hpct', ?_⟩
                      · rw [← forestAt_cons_ne qs hqn]
                        exact hf
                      · intro q3 qs3 hpp3
                        obtain ⟨m, hm, hmr⟩ := hchain q3 qs3 hpp3
                        have hq3 : q = q3 := (pathPre_cons.mp hpp3).1
                        have hq3name : q3 ≠ name := by
                          rw [← hq3]
                          exact hqn
                        refine ⟨m, ?_, hmr⟩
                        rw [← forestAt_cons_ne qs3 hq3name]
                        exact hm

/-! ### Extension equivalence -/

theorem rlast_cons (c a : Char) (as : List Char) :
    rlast c (a :: as) =
      match rlast c as with
      | some i => some (i + 1)
      | none => if a = c then some 0 else none := rfl

theorem rlast_drop (c : Char) (p : List Char) :
    ∀ k : Nat, rlast c (p.drop k) =
      match rlast c p with
      | some i => if k ≤ i then some (i - k) else none
      | none => none := by
  induction p with
  | nil => intro k; simp [rlast]
  | cons a as ih =>
      intro k
      cases k with
      | zero =>
          simp only [List.drop_zero]
          cases h : rlast c (a :: as) <;> simp
      | succ k' =>
          simp only [List.drop_succ_cons]
          rw [ih k', rlast_cons]
          cases h : rlast c as with
          | some i =>
              simp only
              by_cases hk : k' ≤ i
              · rw [if_pos hk, if_pos (by omega)]
                congr 1
                omega
              · rw [if_neg hk, if_neg (by omega)]
          | none =>
              by_cases hac : a = c
              · simp [hac]
              · simp [hac]

/-- `os.path.splitext(p)[1]` coincides with the claim's rule amended by the
leading-dot exception. -/
theorem splitextExt_eq_amended (p : List Char) : splitextExt p = extOfAmended p := by
  cases hs : rlast '/' p with
  | none =>
      simp only [splitextExt, extOfAmended, finalSegment, hs]
      cases hd : rlast '.' p with
      | none => rfl
      | some dd => rfl
  | some s =>
      simp only [splitextExt, extOfAmended, finalSegment, hs]
      rw [rlast_drop '.' p (s + 1)]
      cases hd : rlast '.' p with
      | none => rfl
      | some dd =>
          simp only
          by_cases hk : s + 1 ≤ dd
          · rw [if_pos hk, if_pos (by omega : s < dd)]
            simp only
            have hdrop : (p.drop (s + 1)).drop (dd - (s + 1)) = p.drop dd := by
              rw [List.drop_drop]
              congr 1
              omega
            rw [hdrop]
          · rw [if_neg hk, if_neg (by omega : ¬ s < dd)]

/-- The renderer's threshold test, reduced to integers: for a positive
total, `lines / total > 0.01` holds exactly when `100 * lines` exceeds the
total. -/
theorem ratio_gt_iff (ln t : Nat) (ht : t ≠ 0) :
    ((ln : ℚ) / (t : ℚ) > 1 / 100) ↔ t < 100 * ln := by
  have ht' : (0 : ℚ) < (t : ℚ) := by
    have := Nat.pos_of_ne_zero ht
    exact_mod_cast this
  rw [gt_iff_lt, div_lt_div_iff (by norm_num) ht', one_mul]
  constructor
  · intro h
    have h2 : ((t : Nat) : ℚ) < ((100 * ln : Nat) : ℚ) := by
      push_cast
      linarith
    exact_mod_cast h2
  · intro h
    have h2 : ((t : Nat) : ℚ) < ((100 * ln : Nat) : ℚ) := by exact_mod_cast h
    push_cast at h2
    linarith

/-- What it means for an output entry to be printed from the whole tree:
the forest-level condition, lifted through the root's children. -/
def printedSpecT (total : Nat) (t : DirNode) (pd : PrintedDir) : Prop :=
  ∃ s n, pd.path = s ∧ s ≠ [] ∧ nodeAt t s = some n ∧
    pd.plines = n.lines ∧ pd.pfiles = n.files ∧
    pd.pct = format_percentage n.lines total ∧
    ∀ q qs, PathPre (q :: qs) s →
      ∃ m, nodeAt t (q :: qs) = some m ∧ (m.lines : ℚ) / (total : ℚ) > 1 / 100

theorem print_directory_tree_char (t : DirNode) (total : Nat) (htot : total ≠ 0)
    (hnod : treeNodup t = true) :
    ∃ out, print_directory_tree t total = Except.ok out ∧
      ∀ pd : PrintedDir, pd ∈ out ↔ printedSpecT total t pd := by
  have hsubkeys : (t.subdirs.map (fun e => e.1)).Nodup := (FNodup_of_treeNodup hnod).1
  have hsubperm := pySortedBy_perm (fun e : List Char × DirNode => e.2.lines) t.subdirs
  have hforest : ∀ (q : List Char) (qs : List (List Char)),
      forestAt (pySortedBy (fun e => e.2.lines) t.subdirs) (q :: qs) = nodeAt t (q :: qs) := by
    intro q qs
    rw [nodeAt_eq_forestAt]
    exact (forestAt_perm hsubkeys hsubperm.symm (q :: qs)).symm
  have hnodsub : FNodup (pySortedBy (fun e => e.2.lines) t.subdirs) :=
    FNodup_perm (FNodup_of_treeNodup hnod) hsubperm.symm
  obtain ⟨out, hout, hmem⟩ := printKids_char
    (sizeOf (pySortedBy (fun e => e.2.lines) t.subdirs) + 1) _ (by omega) total [] htot hnodsub
  refine ⟨out, hout, ?_⟩
  intro pd
  rw [hmem pd]
  constructor
  · rintro ⟨s, n, hpath, hs, hf, hl, hfi, hpct, hchain⟩
    refine ⟨s, n, by simpa using hpath, hs, ?_, hl, hfi, hpct, ?_⟩
    · cases s with
      | nil => exact absurd rfl hs
      | cons q qs => rw [← hforest q qs]; exact hf
    · intro q qs hpp
      obtain ⟨m, hm, hmr⟩ := hchain q qs hpp
      exact ⟨m, by rw [← hforest q qs]; exact hm, hmr⟩
  · rintro ⟨s, n, hpath, hs, hf, hl, hfi, hpct, hchain⟩
    refine ⟨s, n, by simpa using hpath, hs, ?_, hl, hfi, hpct, ?_⟩
    · cases s with
      | nil => exact absurd rfl hs
      | cons q qs => rw [hforest q qs]; exact hf
    · intro q qs hpp
      obtain ⟨m, hm, hmr⟩ := hchain q qs hpp
      exact ⟨m, by rw [hforest q qs]; exact hm, hmr⟩

/-! ### Middle-insertion lemmas (for the skip-on-failure analysis) -/

theorem countP_middle {α : Type} (p : α → Bool) (l1 l2 : List α) (x : α) :
    (l1 ++ x :: l2).countP p = (l1 ++ l2).countP p + (if p x then 1 else 0) := by
  by_cases h : p x <;>
    simp [List.countP_append, List.countP_cons, h] <;> omega

theorem mapsum_middle {α : Type} (g : α → Nat) (l1 l2 : List α) (x : α) :
    ((l1 ++ x :: l2).map g).sum = ((l1 ++ l2).map g).sum + g x := by
  simp
  omega

theorem filtermapsum_middle {α : Type} (p : α → Bool) (g : α → Nat) (l1 l2 : List α) (x : α) :
    (((l1 ++ x :: l2).filter p).map g).sum =
      (((l1 ++ l2).filter p).map g).sum + (if p x then g x else 0) := by
  by_cases h : p x <;>
    simp [List.filter_append, List.filter_cons, h] <;> omega

theorem authCnt_middle (a p : List Char) (l1 l2 : List FileIn) :
    authCnt a (l1 ++ (p, []) :: l2) = authCnt a (l1 ++ l2) := by
  rw [authCnt, authCnt, countP_middle]
  simp

theorem authSum_middle (a p : List Char) (l1 l2 : List FileIn) :
    authSum a (l1 ++ (p, []) :: l2) = authSum a (l1 ++ l2) := by
  rw [authSum, authSum, mapsum_middle]
  simp [recSum]

theorem extCnt_middle (e p : List Char) (l1 l2 : List FileIn) :
    extCnt e (l1 ++ (p, []) :: l2) = extCnt e (l1 ++ l2) +
      (if splitextExt p = e then 1 else 0) := by
  rw [extCnt, extCnt, countP_middle]
  by_cases h : splitextExt p = e <;> simp [h]

theorem extSum_middle (e p : List Char) (l1 l2 : List FileIn) :
    extSum e (l1 ++ (p, []) :: l2) = extSum e (l1 ++ l2) := by
  rw [extSum, extSum, filtermapsum_middle]
  simp [fileLines]

theorem aeCnt_middle (a e p : List Char) (l1 l2 : List FileIn) :
    aeCnt a e (l1 ++ (p, []) :: l2) = aeCnt a e (l1 ++ l2) := by
  rw [aeCnt, aeCnt, countP_middle]
  simp

theorem aeSum_middle (a e p : List Char) (l1 l2 : List FileIn) :
    aeSum a e (l1 ++ (p, []) :: l2) = aeSum a e (l1 ++ l2) := by
  rw [aeSum, aeSum, filtermapsum_middle]
  simp [recSum]

theorem treeCnt_middle (q : List (List Char)) (p : List Char) (l1 l2 : List FileIn) :
    treeCnt q (l1 ++ (p, []) :: l2) = treeCnt q (l1 ++ l2) +
      (if PathPre q (dirOf p) then 1 else 0) := by
  rw [treeCnt, treeCnt, countP_middle]
  by_cases h : PathPre q (dirOf p) <;> simp [h]

theorem treeSum_middle (q : List (List Char)) (p : List Char) (l1 l2 : List FileIn) :
    treeSum q (l1 ++ (p, []) :: l2) = treeSum q (l1 ++ l2) := by
  rw [treeSum, treeSum, filtermapsum_middle]
  simp [fileLines]

theorem total_middle (p : List Char) (l1 l2 : List FileIn) :
    (runStats (l1 ++ (p, []) :: l2)).total_lines = (runStats (l1 ++ l2)).total_lines := by
  rw [total_char, total_char, mapsum_middle]
  simp [fileLines]

/-! ## The claims -/

/-- C1 is contradicted at the root of the tree: on a one-file input with 3
lines the grand total is 3, but the root directory node's `lines` counter —
which `build_directory_tree` never updates — is 0. -/
theorem c1_root_total_counterexample :
    (runStats [(chars ("a/b.py"), [(chars ("Alice"), 3)])]).total_lines = 3 ∧
    (build_directory_tree [(chars ("a/b.py"), [(chars ("Alice"), 3)])]).lines = 0 ∧
    (3 : Nat) ≠ 0 :=
  ⟨rfl, rfl, by decide⟩

/-- C1 (amended): cross-table consistency holds between the four aggregate
tables — extension line sums, author line sums, the author-by-extension
marginals in both directions — and `total_lines`; the root directory node,
however, keeps `lines = 0` and `files = 0` on every input, so the tree-root
equality of the original claim is replaced by that fact. -/
theorem c1_cross_table_consistency (files : List FileIn) :
    sumProj (fun es => es.lines) (runStats files).extension_stats =
      (runStats files).total_lines ∧
    fileLines (runStats files).author_stats = (runStats files).total_lines ∧
    (∀ a, (getA (runStats files).author_ext_stats a).map fileLines =
      getA (runStats files).author_stats a) ∧
    (∀ e, sumProj (fun inner => (getA inner e).getD 0) (runStats files).author_ext_stats =
      ((getA (runStats files).extension_stats e).map (fun es => es.lines)).getD 0) ∧
    (build_directory_tree files).lines = 0 ∧
    (build_directory_tree files).files = 0 :=
  ⟨sum_ext_eq_total files, sum_author_eq_total files, margA files, margB files,
    build_root_lines files, build_root_files files⟩

/-- C2 is contradicted at the root: the rollup equation fails for the root
node, whose `lines` stays 0 while its children already hold the 3 lines of
the single input file. -/
theorem c2_root_rollup_counterexample :
    (build_directory_tree [(chars ("a/b.py"), [(chars ("Alice"), 3)])]).lines = 0 ∧
    subSum (build_directory_tree [(chars ("a/b.py"), [(chars ("Alice"), 3)])]) +
      directSum [(chars ("a/b.py"), [(chars ("Alice"), 3)])] [] = 3 ∧
    (0 : Nat) ≠ 3 :=
  ⟨rfl, rfl, by decide⟩

/-- C2 (amended): inserting a file with `L` lines increments `files` by 1
and `lines` by `L` at every nonempty directory level on its path; a file
with no directory segment leaves the tree unchanged (it contributes to no
node at all, the root's counters included); and the rollup equation
`lines = sum of children + direct files` holds for every *non-root* node of
a built tree. -/
theorem c2_tree_build (files : List FileIn) :
    (∀ (t : DirNode) (f : FileIn) (p : List (List Char)), p ≠ [] →
      PathPre p (dirOf f.1) →
      statsAt (insertFile t (dirOf f.1) (fileLines f.2)) p =
        some (((statsAt t p).getD (0, 0)).1 + 1,
              ((statsAt t p).getD (0, 0)).2 + fileLines f.2)) ∧
    (∀ (t : DirNode) (L : Nat), insertFile t [] L = t) ∧
    (∀ (p : List (List Char)) (n : DirNode), p ≠ [] →
      nodeAt (build_directory_tree files) p = some n →
      n.lines = subSum n + directSum files p) :=
  ⟨fun t f p hne hpre => insertFile_statsAt_in (dirOf f.1) (fileLines f.2) t p hpre hne,
   fun _ _ => rfl,
   rollup_build files⟩

theorem c2_tree_build_witness :
    statsAt (insertFile (DirNode.mk 0 0 []) (dirOf (chars ("a/b.py")))
        (fileLines [(chars ("Alice"), 3)])) [chars ("a")] =
      some (((statsAt (DirNode.mk 0 0 []) [chars ("a")]).getD (0, 0)).1 + 1,
            ((statsAt (DirNode.mk 0 0 []) [chars ("a")]).getD (0, 0)).2 +
              fileLines [(chars ("Alice"), 3)]) :=
  (c2_tree_build []).1 (DirNode.mk 0 0 []) (chars ("a/b.py"), [(chars ("Alice"), 3)])
    [chars ("a")] (by decide) (by decide)

/-- C5: the claim of total, never-failing core logic is contradicted by the
renderer, which evaluates `lines / total_lines` before any zero guard: a
run whose single tracked file has a directory segment but an empty
authorship record reaches the renderer with a nonempty tree and a zero
grand total and raises a `ZeroDivisionError` (`Except.error ()`).  Only
`format_percentage` guards its `whole == 0` case. -/
theorem c5_zero_total_division :
    print_directory_tree
      (build_directory_tree [(chars ("sub/a.py"), ([] : List (List Char × Nat)))]) 0 =
      Except.error () ∧
    format_percentage 3 0 = 0 := by
  constructor
  · have h : pySortedBy (fun e : List Char × DirNode => e.2.lines)
        (build_directory_tree [(chars ("sub/a.py"), ([] : List (List Char × Nat)))]).subdirs =
        [(chars ("sub"), DirNode.mk 1 0 [])] := rfl
    rw [print_directory_tree, h, printKids, if_pos (rfl : (0 : Nat) = 0)]
  · rfl

/-- C6 is contradicted by dotfiles: for the path `".py"` the code's
`os.path.splitext` yields the empty extension (the leading dot of a hidden
file does not start an extension), while the claimed last-dot rule yields
`".py"` itself. -/
theorem c6_hidden_file_counterexample :
    splitextExt (chars (".py")) = [] ∧
    extOfClaim (chars (".py")) = chars (".py") ∧
    ([] : List Char) ≠ chars (".py") :=
  ⟨rfl, rfl, by decide⟩

/-- C6 (amended): the extension bucket is the suffix of the final path
segment from its last dot — except that a dot preceded only by dots in the
final segment starts no extension, and a dotless final segment gets the
empty bucket. -/
theorem c6_extension_rule (p : List Char) : splitextExt p = extOfAmended p :=
  splitextExt_eq_amended p

/-- C7 is contradicted by duplicated author lines: because `current_commit`
is never cleared after an author line is consumed, a block whose metadata
repeats `author X` twice counts its single content line twice (total 2
against 1 content line), so a content line *can* be double-counted while
processing its metadata block. -/
theorem c7_double_author_counterexample :
    fileLines (get_git_blame_info [List.replicate 40 'a',
      authTagL ++ chars ("X"), authTagL ++ chars ("X"), '\t' :: chars ("code")]) = 2 ∧
    contentCount [List.replicate 40 'a',
      authTagL ++ chars ("X"), authTagL ++ chars ("X"), '\t' :: chars ("code")] = 1 ∧
    ¬ (2 : Nat) ≤ 1 :=
  ⟨rfl, rfl, by decide⟩

/-- C7 (amended): a line that is neither `"author "`-prefixed nor a 40-digit
lowercase-hex commit header is silently ignored; each single line increments
the grand author total by at most one — exactly one when it is an author
line seen with a truthy `current_commit` and a nonempty name, zero
otherwise; and a commit header only updates `current_commit`.  (Per *block*
the increment is unbounded, as the counterexample shows.) -/
theorem c7_parser_per_line :
    (∀ (st : BlameSt) (line : List Char), authTagL.isPrefixOf line = false →
      isHex40 line = false → blameStep st line = st) ∧
    (∀ (st : BlameSt) (line : List Char),
      fileLines (blameStep st line).2 = fileLines st.2 +
        (if authTagL.isPrefixOf line = true ∧ truthyS st.1 = true ∧ line.drop 7 ≠ []
         then 1 else 0)) ∧
    (∀ (st : BlameSt) (line : List Char), isHex40 line = true →
      blameStep st line = (some (firstTok line), st.2)) := by
  refine ⟨blameStep_ignore, ?_, fun st line h => blameStep_sha st h⟩
  intro st line
  by_cases hp : authTagL.isPrefixOf line = true
  · by_cases ht : truthyS st.1 = true
    · by_cases hd : line.drop 7 = []
      · simp [blameStep, hp, ht, hd]
      · simp [blameStep, hp, ht, hd, fileLines_bumpCount]
    · simp [blameStep, hp, ht]
  · by_cases hx : isHex40 line = true
    · simp [blameStep, hp, hx]
    · simp [blameStep, hp, hx]

theorem c7_parser_per_line_witness :
    blameStep ((none, []) : BlameSt) (chars ("junk")) = ((none, []) : BlameSt) :=
  c7_parser_per_line.1 (none, []) (chars ("junk")) (by decide) (by decide)

/-- C8: on well-formed porcelain input the parser's result is a genuine
author table (no error path exists in the embedding), and conservation
holds: the sum of its counts equals the number of content lines, which is
the number of blocks. -/
theorem c8_conservation (bs : List Block) (h : ∀ b ∈ bs, b.wf) :
    fileLines (get_git_blame_info (porcelain bs)) = contentCount (porcelain bs) ∧
    contentCount (porcelain bs) = bs.length := by
  have h1 := blocks_fold h ((none, []) : BlameSt)
  have h2 := contentCount_porcelain h
  refine ⟨?_, h2⟩
  rw [get_git_blame_info, h1, h2]
  simp [fileLines]

theorem c8_conservation_witness :
    fileLines (get_git_blame_info (porcelain
      [⟨List.replicate 40 'a', [], chars ("Alice"), [], '\t' :: chars ("x")⟩])) =
      contentCount (porcelain
        [⟨List.replicate 40 'a', [], chars ("Alice"), [], '\t' :: chars ("x")⟩]) ∧
    contentCount (porcelain
      [⟨List.replicate 40 'a', [], chars ("Alice"), [], '\t' :: chars ("x")⟩]) = 1 :=
  c8_conservation [⟨List.replicate 40 'a', [], chars ("Alice"), [], '\t' :: chars ("x")⟩]
    (by decide)

/-- C9: the sort used by every listing (`sorted(..., reverse=True)` on the
line count, modelled by `pySortedBy`) is descending on the key, a
permutation of its input, and stable — entries with any fixed key keep
their relative (first-encounter) order; on the claim's concrete example
(authors A and B with 100 lines each, C with 50, encountered in that order)
the rendered order is A, B, C. -/
theorem c9_descending_stable_sort :
    (∀ (α : Type) (key : α → Nat) (l : List α),
      (pySortedBy key l).Pairwise (fun a b => key b ≤ key a) ∧
      (pySortedBy key l).Perm l ∧
      (∀ v, (pySortedBy key l).filter (fun a => decide (key a = v)) =
        l.filter (fun a => decide (key a = v)))) ∧
    pySortedBy (fun e => e.2) (runStats [(chars ("a.py"), [(chars ("A"), 100)]),
        (chars ("b.py"), [(chars ("B"), 100)]),
        (chars ("c.py"), [(chars ("C"), 50)])]).author_stats =
      [(chars ("A"), 100), (chars ("B"), 100), (chars ("C"), 50)] :=
  ⟨fun _ key l => ⟨pySortedBy_sorted key l, pySortedBy_perm key l,
    fun v => pySortedBy_filter key l v⟩, rfl⟩

/-- C4 is contradicted by the extension file counter: with three tracked
`.py` files of which the middle one fails blame (empty record),
`extension_stats[".py"]["files"]` is 3, not the 2 the claim's exclusion
would give — the `files` increment at line 152 runs unconditionally. -/
theorem c4_failed_blame_counterexample :
    ((getA (runStats [(chars ("a.py"), [(chars ("A"), 2)]),
        (chars ("b.py"), ([] : List (List Char × Nat))),
        (chars ("sub/c.py"), [(chars ("B"), 3)])]).extension_stats
      (chars (".py"))).map (fun es => es.files)).getD 0 = 3 ∧
    ((getA (runStats [(chars ("a.py"), [(chars ("A"), 2)]),
        (chars ("sub/c.py"), [(chars ("B"), 3)])]).extension_stats
      (chars (".py"))).map (fun es => es.files)).getD 0 = 2 ∧
    (3 : Nat) ≠ 2 :=
  ⟨rfl, rfl, by decide⟩

/-- C4 (amended): a file with an empty authorship record contributes
nothing to `total_lines`, to the author table, to the author-by-extension
table, or to any *line* count (extension lines and tree node lines), and it
is still counted by the external `files analyzed` length; but it *does*
increment its extension's `files` counter and the `files` counter of every
tree node on its directory path. -/
theorem c4_failed_blame (l1 l2 : List FileIn) (p : List Char) :
    (runStats (l1 ++ (p, []) :: l2)).total_lines = (runStats (l1 ++ l2)).total_lines ∧
    (∀ a, getA (runStats (l1 ++ (p, []) :: l2)).author_stats a =
      getA (runStats (l1 ++ l2)).author_stats a) ∧
    (∀ a e, aeGet (runStats (l1 ++ (p, []) :: l2)).author_ext_stats a e =
      aeGet (runStats (l1 ++ l2)).author_ext_stats a e) ∧
    (∀ a, getA (runStats (l1 ++ (p, []) :: l2)).author_ext_stats a = none ↔
      getA (runStats (l1 ++ l2)).author_ext_stats a = none) ∧
    (∀ e, ((getA (runStats (l1 ++ (p, []) :: l2)).extension_stats e).map
        (fun es => es.lines)).getD 0 =
      ((getA (runStats (l1 ++ l2)).extension_stats e).map (fun es => es.lines)).getD 0) ∧
    (∀ e, ((getA (runStats (l1 ++ (p, []) :: l2)).extension_stats e).map
        (fun es => es.files)).getD 0 =
      ((getA (runStats (l1 ++ l2)).extension_stats e).map (fun es => es.files)).getD 0 +
        (if splitextExt p = e then 1 else 0)) ∧
    (∀ q, q ≠ [] →
      ((statsAt (build_directory_tree (l1 ++ (p, []) :: l2)) q).map (fun s => s.2)).getD 0 =
      ((statsAt (build_directory_tree (l1 ++ l2)) q).map (fun s => s.2)).getD 0) ∧
    (∀ q, q ≠ [] →
      ((statsAt (build_directory_tree (l1 ++ (p, []) :: l2)) q).map (fun s => s.1)).getD 0 =
      ((statsAt (build_directory_tree (l1 ++ l2)) q).map (fun s => s.1)).getD 0 +
        (if PathPre q (dirOf p) then 1 else 0)) ∧
    (l1 ++ (p, []) :: l2).length = (l1 ++ l2).length + 1 := by
  refine ⟨total_middle p l1 l2, ?_, ?_, ?_, ?_, ?_, ?_, ?_, by simp; omega⟩
  · intro a
    rw [author_char, author_char, authCnt_middle, authSum_middle]
  · intro a e
    rw [ae_char, ae_char, aeCnt_middle, aeSum_middle]
  · intro a
    rw [ae_outer_char, ae_outer_char, authCnt_middle]
  · intro e
    rw [ext_char, ext_char, extCnt_middle, extSum_middle]
    by_cases h0 : extCnt e (l1 ++ l2) = 0
    · by_cases hs : splitextExt p = e
      · simp [h0, hs, extSum_zero h0]
      · simp [h0, hs]
    · by_cases hs : splitextExt p = e
      · simp [h0, hs]
      · simp [h0, hs]
  · intro e
    rw [ext_char, ext_char, extCnt_middle, extSum_middle]
    by_cases h0 : extCnt e (l1 ++ l2) = 0
    · by_cases hs : splitextExt p = e
      · simp [h0, hs]
      · simp [h0, hs]
    · by_cases hs : splitextExt p = e
      · simp [h0, hs]
      · simp [h0, hs]
  · intro q hq
    rw [statsAt_build _ _ hq, statsAt_build _ _ hq, treeCnt_middle, treeSum_middle]
    by_cases h0 : treeCnt q (l1 ++ l2) = 0
    · by_cases hs : PathPre q (dirOf p)
      · simp [h0, hs, treeSum_zero h0]
      · simp [h0, hs]
    · by_cases hs : PathPre q (dirOf p)
      · simp [h0, hs]
      · simp [h0, hs]
  · intro q hq
    rw [statsAt_build _ _ hq, statsAt_build _ _ hq, treeCnt_middle, treeSum_middle]
    by_cases h0 : treeCnt q (l1 ++ l2) = 0
    · by_cases hs : PathPre q (dirOf p)
      · simp [h0, hs]
      · simp [h0, hs]
    · by_cases hs : PathPre q (dirOf p)
      · simp [h0, hs]
      · simp [h0, hs]

theorem c4_failed_blame_witness :
    ((statsAt (build_directory_tree ([(chars ("a.py"), [(chars ("A"), 2)])] ++
        (chars ("sub/b.py"), ([] : List (List Char × Nat))) ::
        [(chars ("sub/c.py"), [(chars ("B"), 3)])])) [chars ("sub")]).map
      (fun s => s.1)).getD 0 =
    ((statsAt (build_directory_tree ([(chars ("a.py"), [(chars ("A"), 2)])] ++
        [(chars ("sub/c.py"), [(chars ("B"), 3)])])) [chars ("sub")]).map
      (fun s => s.1)).getD 0 +
    (if PathPre [chars ("sub")] (dirOf (chars ("sub/b.py"))) then 1 else 0) :=
  (c4_failed_blame [(chars ("a.py"), [(chars ("A"), 2)])]
    [(chars ("sub/c.py"), [(chars ("B"), 3)])]
    (chars ("sub/b.py"))).2.2.2.2.2.2.2.1 [chars ("sub")] (by decide)

/-- C10: aggregation is order-independent — permuting the input file list
leaves `total_lines`, all four aggregate tables (looked up pointwise), and
the `files`/`lines` counters of every directory-tree node unchanged, and
preserves the `files analyzed` length. -/
theorem c10_order_invariance (l1 l2 : List FileIn) (hp : l1.Perm l2) :
    (runStats l1).total_lines = (runStats l2).total_lines ∧
    (∀ e, getA (runStats l1).extension_stats e = getA (runStats l2).extension_stats e) ∧
    (∀ a, getA (runStats l1).author_stats a = getA (runStats l2).author_stats a) ∧
    (∀ a e, aeGet (runStats l1).author_ext_stats a e =
      aeGet (runStats l2).author_ext_stats a e) ∧
    (∀ a, getA (runStats l1).author_ext_stats a = none ↔
      getA (runStats l2).author_ext_stats a = none) ∧
    (∀ p, statsAt (build_directory_tree l1) p = statsAt (build_directory_tree l2) p) ∧
    l1.length = l2.length := by
  have hext : ∀ e, extCnt e l1 = extCnt e l2 := fun e => hp.countP_eq _
  have hextS : ∀ e, extSum e l1 = extSum e l2 := fun e => ((hp.filter _).map _).sum_eq
  have hauth : ∀ a, authCnt a l1 = authCnt a l2 := fun a => hp.countP_eq _
  have hauthS : ∀ a, authSum a l1 = authSum a l2 := fun a => ((hp.map _)).sum_eq
  have hae : ∀ a e, aeCnt a e l1 = aeCnt a e l2 := fun a e => hp.countP_eq _
  have haeS : ∀ a e, aeSum a e l1 = aeSum a e l2 := fun a e => ((hp.filter _).map _).sum_eq
  have htc : ∀ p, treeCnt p l1 = treeCnt p l2 := fun p => hp.countP_eq _
  have hts : ∀ p, treeSum p l1 = treeSum p l2 := fun p => ((hp.filter _).map _).sum_eq
  refine ⟨?_, ?_, ?_, ?_, ?_, ?_, hp.length_eq⟩
  · rw [total_char, total_char]
    exact (hp.map _).sum_eq
  · intro e
    rw [ext_char, ext_char, hext e, hextS e]
  · intro a
    rw [author_char, author_char, hauth a, hauthS a]
  · intro a e
    rw [ae_char, ae_char, hae a e, haeS a e]
  · intro a
    rw [ae_outer_char, ae_outer_char, hauth a]
  · intro p
    cases p with
    | nil =>
        simp only [statsAt, nodeAt, Option.map_some']
        rw [build_root_files, build_root_files, build_root_lines, build_root_lines]
    | cons q qs =>
        rw [statsAt_build _ _ (by simp), statsAt_build _ _ (by simp),
          htc (q :: qs), hts (q :: qs)]

theorem c10_order_invariance_witness :
    (runStats [(chars ("a.py"), [(chars ("A"), 2)]),
      (chars ("b.py"), [(chars ("B"), 3)])]).total_lines =
    (runStats [(chars ("b.py"), [(chars ("B"), 3)]),
      (chars ("a.py"), [(chars ("A"), 2)])]).total_lines :=
  (c10_order_invariance
    [(chars ("a.py"), [(chars ("A"), 2)]), (chars ("b.py"), [(chars ("B"), 3)])]
    [(chars ("b.py"), [(chars ("B"), 3)]), (chars ("a.py"), [(chars ("A"), 2)])]
    (List.Perm.swap (chars ("b.py"), [(chars ("B"), 3)])
      (chars ("a.py"), [(chars ("A"), 2)]) [])).1

/-- C3: renderer characterisation — on a keyed-nodup tree with nonzero
total, `print_directory_tree` succeeds and prints exactly the nonempty
paths every prefix of which (the node itself included) reaches a node with
`lines / total > 1/100`, the one fixed root-grand-total denominator being
passed unchanged to every depth; built trees are always keyed-nodup; the
strict threshold is equivalent to `total < 100 * lines` (so an exactly-1%
child at 1/100 is pruned and a 1.01% child at 101/10000 is printed, as the
two concrete evaluations show); and the child sort is by descending line
count. -/
theorem c3_threshold_rendering :
    (∀ (t : DirNode) (total : Nat), total ≠ 0 → treeNodup t = true →
      ∃ out, print_directory_tree t total = Except.ok out ∧
        ∀ pd : PrintedDir, pd ∈ out ↔ printedSpecT total t pd) ∧
    (∀ files, treeNodup (build_directory_tree files) = true) ∧
    (∀ (ln total : Nat), total ≠ 0 →
      (((ln : ℚ) / (total : ℚ) > 1 / 100) ↔ total < 100 * ln)) ∧
    (∀ (l : List (List Char × DirNode)),
      (pySortedBy (fun e => e.2.lines) l).Pairwise (fun a b => b.2.lines ≤ a.2.lines) ∧
      (pySortedBy (fun e => e.2.lines) l).Perm l) ∧
    print_directory_tree (DirNode.mk 0 0 [(chars ("a"), DirNode.mk 1 1 [])]) 100 =
      Except.ok [] ∧
    print_directory_tree (DirNode.mk 0 0 [(chars ("a"), DirNode.mk 1 101 [])]) 10000 =
      Except.ok [⟨[chars ("a")], 101, 1, format_percentage 101 10000⟩] := by
  refine ⟨print_directory_tree_char, build_treeNodup, ratio_gt_iff,
    fun l => ⟨pySortedBy_sorted _ l, pySortedBy_perm _ l⟩, ?_, ?_⟩
  · have h1 : pySortedBy (fun e : List Char × DirNode => e.2.lines)
        (DirNode.mk 0 0 [(chars ("a"), DirNode.mk 1 1 [])]).subdirs =
        [(chars ("a"), DirNode.mk 1 1 [])] := rfl
    rw [print_directory_tree, h1, printKids, if_neg (by decide : ¬ (100 : Nat) = 0)]
    have hr : ¬ (((DirNode.mk 1 1 []).lines : ℚ) / ((100 : Nat) : ℚ) > 1 / 100) := by
      rw [ratio_gt_iff _ _ (by decide)]
      decide
    rw [if_neg hr, printKids]
  · have h1 : pySortedBy (fun e : List Char × DirNode => e.2.lines)
        (DirNode.mk 0 0 [(chars ("a"), DirNode.mk 1 101 [])]).subdirs =
        [(chars ("a"), DirNode.mk 1 101 [])] := rfl
    rw [print_directory_tree, h1, printKids, if_neg (by decide : ¬ (10000 : Nat) = 0)]
    have hr : ((DirNode.mk 1 101 []).lines : ℚ) / ((10000 : Nat) : ℚ) > 1 / 100 := by
      rw [ratio_gt_iff _ _ (by decide)]
      decide
    rw [if_pos hr]
    have e1 : printKids 10000 ([] ++ [chars ("a")])
        (pySortedBy (fun e : List Char × DirNode => e.2.lines)
          (DirNode.mk 1 101 []).subdirs) = Except.ok [] := by
      have h2 : pySortedBy (fun e : List Char × DirNode => e.2.lines)
          (DirNode.mk 1 101 []).subdirs = [] := rfl
      rw [h2, printKids]
    have e2 : printKids 10000 [] ([] : List (List Char × DirNode)) = Except.ok [] := by
      rw [printKids]
    rw [e1, e2]
    rfl

theorem c3_threshold_rendering_witness :
    ∃ out, print_directory_tree
        (build_directory_tree [(chars ("a/b.py"), [(chars ("Alice"), 3)])]) 3 =
        Except.ok out ∧
      ∀ pd : PrintedDir, pd ∈ out ↔ printedSpecT 3
        (build_directory_tree [(chars ("a/b.py"), [(chars ("Alice"), 3)])]) pd :=
  c3_threshold_rendering.1
    (build_directory_tree [(chars ("a/b.py"), [(chars ("Alice"), 3)])]) 3
    (by decide) (build_treeNodup [(chars ("a/b.py"), [(chars ("Alice"), 3)])])
